import Mathlib

/-!
Verification development for the GSaPDef repository.

Shallow embedding of `src/gsapdef/chem.py`, `src/gsapdef/material.py`,
`src/gsapdef/profile.py` and `src/samplmodls/layer.py`.

Modelling conventions:
* Python strings become `List Char`; character classes (`isupper`, `islower`,
  `isdigit`) are modelled by Lean's ASCII classifiers, matching the spec's
  declared input surface `[A-Za-z0-9().]`.
* Python floats become exact rationals `ℚ`; the decimal literal produced by
  `float(...)` on a digits-and-dot token is modelled by its exact decimal
  value (binary rounding is not modelled; no claim depends on it).
* The `returns.result.Result` type becomes `Except`: `Success` is `.ok`,
  `Failure` is `.error`.
* Exception objects are modelled by tags, keeping exactly the distinctions
  the code itself inspects (crucially `IndexError` versus other failures in
  `extract_number`'s callers) plus the distinct message families.
-/

attribute [local semireducible] Rat.add Rat.mul Rat.sub Rat.inv Rat.ofScientific

/-- Error tags for the formula parser, one per distinct failure site of
`chem.py`.  `indexError` is the sole `IndexError` (the "Expected a number"
no-number case); all others are `ValueError`s.  `fuel` is an artifact of the
fuel-based embedding of the mutually recursive descent; it is never produced
when the parser is run with fuel `2 * source.length + 1` as `parse_formula`
does. -/
inductive ParseErr where
  | indexError
  | multipleDecimals
  | floatConv
  | subscriptNonPositive
  | notUpper
  | notGroupStart
  | unmatchedParen
  | unexpectedChar
  | noProgress
  | trailing
  | fuel
deriving DecidableEq, Repr

/-- The component tree of `chem.py`: `Element(count, symbol)` and
`Group(count, components)` (the abstract base `Component` carries `count`). -/
inductive Component where
  | element (count : ℚ) (symbol : List Char)
  | group (count : ℚ) (components : List Component)
deriving Repr

/-- The class `Formula` is a `list[Component]` subclass; its extra behaviour lives in
the functions below. -/
abbrev Formula := List Component

/-- Numeric value of a digit string read in base 10 (helper for the model of
Python's `float`). -/
def digitsVal (ds : List Char) : ℚ :=
  ds.foldl (fun acc c => 10 * acc + ((c.toNat - '0'.toNat : ℕ) : ℚ)) 0

/-- Value of a fractional digit string (the part after the decimal point). -/
def fracVal (ds : List Char) : ℚ :=
  digitsVal ds / 10 ^ ds.length

/-- Model of Python's `float()` applied to a token made of digits and at most
one `'.'` (the only shapes `extract_number` feeds it): the exact decimal
value, or `none` for the sole failing token `"."` (and the unreachable `""`),
where `float` raises `ValueError`. -/
def floatOfToken (tok : List Char) : Option ℚ :=
  match tok.dropWhile (· ≠ '.') with
  | [] => if tok = [] then none else some (digitsVal tok)
  | _ :: frac =>
    if tok.takeWhile (· ≠ '.') = [] ∧ frac = [] then none
    else some (digitsVal (tok.takeWhile (· ≠ '.')) + fracVal frac)

/-- The character class scanned by `extract_number`'s loop:
`char.isdigit() or char == '.'`. -/
def isNumChar (c : Char) : Bool := c.isDigit || c = '.'

/-- The scanning loop of `extract_number`, expressed on the suffix
`source.drop start`: returns how many characters the loop consumes, or the
`multipleDecimals` error raised upon meeting a second `'.'`. -/
def scanNum : List Char → Bool → Except ParseErr Nat
  | [], _ => .ok 0
  | c :: cs, decimalFound =>
    if ¬ isNumChar c then .ok 0
    else if c = '.' then
      if decimalFound then .error .multipleDecimals
      else
        match scanNum cs true with
        | .ok k => .ok (k + 1)
        | .error e => .error e
    else
      match scanNum cs decimalFound with
      | .ok k => .ok (k + 1)
      | .error e => .error e

/-- Embedding of `extract_number(source, start)`: scan digits/dots from `start`, fail with
`indexError` when nothing was consumed, otherwise convert the consumed
substring with `float()`. -/
def extract_number (source : List Char) (start : Nat) : Except ParseErr (ℚ × Nat) :=
  match scanNum (source.drop start) false with
  | .error e => .error e
  | .ok k =>
    if k = 0 then .error .indexError
    else
      match floatOfToken ((source.drop start).take k) with
      | none => .error .floatConv
      | some number => .ok (number, start + k)

/-- The callers' shared idiom around `extract_number`: a successful scan is
taken as is; the `IndexError` ("no number here") case defaults the subscript
to `1.0` leaving the index unchanged; any other scanner failure propagates. -/
def numberOrDefault (res : Except ParseErr (ℚ × Nat)) (index : Nat) :
    Except ParseErr (ℚ × Nat) :=
  match res with
  | .ok v => .ok v
  | .error .indexError => .ok (1, index)
  | .error e => .error e

/-- Embedding of `extract_component(source, start)`: an uppercase letter, a maximal run of
lowercase letters, then an optional subscript which must be positive. -/
def extract_component (source : List Char) (start : Nat) :
    Except ParseErr (Component × Nat) :=
  match source[start]? with
  | none => .error .indexError
  | some c =>
    if ¬ c.isUpper then .error .notUpper
    else
      let lows := (source.drop (start + 1)).takeWhile (·.isLower)
      let index := start + 1 + lows.length
      let symbol := c :: lows
      match numberOrDefault (extract_number source index) index with
      | .error e => .error e
      | .ok (count, index2) =>
        if count ≤ 0 then .error .subscriptNonPositive
        else .ok (.element count symbol, index2)

mutual

/-- Embedding of `parse_section(source, start)`: the while-loop of the source expressed as
recursion; stops at `')'` or end of input, dispatches on the current
character, and enforces the no-progress guard after each extraction.  The
`fuel` argument makes the mutual recursion structural; `parse_formula`
supplies fuel that can never run out. -/
def parse_section (source : List Char) (start : Nat) :
    Nat → Except ParseErr (List Component × Nat)
  | 0 => .error .fuel
  | fuel + 1 =>
    match source[start]? with
    | none => .ok ([], start)
    | some char =>
      if char = ')' then .ok ([], start)
      else if char.isAlpha then
        match extract_component source start with
        | .error e => .error e
        | .ok (component, next_index) =>
          if next_index = start then .error .noProgress
          else
            match parse_section source next_index fuel with
            | .error e => .error e
            | .ok (components, stop) => .ok (component :: components, stop)
      else if char = '(' then
        match extract_group source start fuel with
        | .error e => .error e
        | .ok (component, next_index) =>
          if next_index = start then .error .noProgress
          else
            match parse_section source next_index fuel with
            | .error e => .error e
            | .ok (components, stop) => .ok (component :: components, stop)
      else .error .unexpectedChar

/-- Embedding of `extract_group(source, start)`: `'('`, a section, `')'`, then an optional
subscript which must be positive. -/
def extract_group (source : List Char) (start : Nat) :
    Nat → Except ParseErr (Component × Nat)
  | 0 => .error .fuel
  | fuel + 1 =>
    match source[start]? with
    | none => .error .indexError
    | some c =>
      if c ≠ '(' then .error .notGroupStart
      else
        match parse_section source (start + 1) fuel with
        | .error e => .error e
        | .ok (comps, index) =>
          match source[index]? with
          | none => .error .unmatchedParen
          | some c2 =>
            if c2 ≠ ')' then .error .unmatchedParen
            else
              match numberOrDefault (extract_number source (index + 1)) (index + 1) with
              | .error e => .error e
              | .ok (count, index2) =>
                if count ≤ 0 then .error .subscriptNonPositive
                else .ok (.group count comps, index2)

end

/-- Embedding of `parse_formula(source)`: parse a section from index 0 and require that it
consumed the whole string. -/
def parse_formula (source : List Char) : Except ParseErr (List Component) :=
  match parse_section source 0 (2 * source.length + 1) with
  | .error e => .error e
  | .ok (components, next_index) =>
    if next_index ≠ source.length then .error .trailing
    else .ok components

/-- Embedding of `Formula.from_string`: the classmethod merely rewraps `parse_formula`'s
result. -/
def Formula.from_string (source : List Char) : Except ParseErr Formula :=
  parse_formula source

mutual

/-- Symbols contributed by one component in `Formula.elements()`: an element
appends its symbol, a group recursively contributes its children's symbols. -/
def elemsOf : Component → List (List Char)
  | .element _ symbol => [symbol]
  | .group _ comps => elemsList comps

/-- The symbol multiset collected by `Formula.elements()`'s loop before the
final `list(set(...))` (the inner recursive call dedups early in Python, which
cannot change the final set). -/
def elemsList : List Component → List (List Char)
  | [] => []
  | comp :: rest => elemsOf comp ++ elemsList rest

end

/-- Embedding of `Formula.elements()`: Python returns `list(set(elems))`, whose order is
unspecified hash order, so the result is modelled as the underlying finite
set of symbols. -/
def Formula.elements (f : Formula) : Finset (List Char) :=
  (elemsList f).toFinset

/-- The nested numeric structure returned by `Formula.counts()`. -/
inductive NestedFloat where
  | num (q : ℚ)
  | pair (l : List NestedFloat) (q : ℚ)
deriving Repr

mutual

/-- The entry `Formula.counts()` appends for one component: an element yields
its count, a group yields the pair of its children's counts and its own
count. -/
def countOf : Component → NestedFloat
  | .element count _ => .num count
  | .group count comps => .pair (countsList comps) count

/-- The loop of `Formula.counts()`, preserving top-level order. -/
def countsList : List Component → List NestedFloat
  | [] => []
  | comp :: rest => countOf comp :: countsList rest

end

/-- Embedding of `Formula.counts()`. -/
def Formula.counts (f : Formula) : List NestedFloat := countsList f

/-- Python's `x % 1.0` on a float: the fractional part `x - ⌊x⌋`
(the result has the divisor's sign, hence floor). -/
def mod1 (q : ℚ) : ℚ := q - ⌊q⌋

mutual

/-- Validity of one component in `Formula.is_chem_valid()`: an element fails
when `count % 1 != 0.0 or count <= 0`; a group is the recursive check of its
children. -/
def chemValidOf : Component → Bool
  | .element count _ => if mod1 count ≠ 0 ∨ count ≤ 0 then false else true
  | .group _ comps => chemValidList comps

/-- The loop of `Formula.is_chem_valid()`: return `False` at the first bad
component, `True` past the end. -/
def chemValidList : List Component → Bool
  | [] => true
  | comp :: rest => if chemValidOf comp = false then false else chemValidList rest

end

/-- Embedding of `Formula.is_chem_valid()`. -/
def Formula.is_chem_valid (f : Formula) : Bool := chemValidList f

/-! ## Embedding of `src/gsapdef/material.py` -/

/-- The `CompositionType` enumeration. -/
inductive CompositionType where
  | UNKNOWN
  | STOICHIOMETRIC
  | WEIGHT_FRACTION
deriving DecidableEq, Repr

/-- The `Material` dataclass: a code string and a density (default `0.0`).
The derived `composition` field is recomputed by `Material.composition`
below, exactly as `__post_init__` derives it from `code`. -/
structure Material where
  code : List Char
  density : ℚ := 0

/-- Embedding of `__post_init__`: `self.composition = Formula.from_string(self.code)`. -/
def Material.composition (m : Material) : Except ParseErr Formula :=
  Formula.from_string m.code

/-- The `count` attribute shared by both `Component` subclasses. -/
def Component.count : Component → ℚ
  | .element count _ => count
  | .group count _ => count

/-- Python's `int()` on a float: truncation toward zero. -/
def pyint (q : ℚ) : ℤ := q.num.tdiv q.den

/-- Embedding of `Material.composition_type()`: `UNKNOWN` when the parse failed; otherwise
classify the top-level counts — all strictly inside `(0, 1)` gives
`WEIGHT_FRACTION`, else all with `x % 1 == 0.0` and `int(x) >= 1` gives
`STOICHIOMETRIC`, else `UNKNOWN`. -/
def Material.composition_type (m : Material) : CompositionType :=
  match m.composition with
  | .error _ => .UNKNOWN
  | .ok formula =>
    let values := formula.map Component.count
    if ∀ x ∈ values, 0 < x ∧ x < 1 then .WEIGHT_FRACTION
    else if (∀ x ∈ values, mod1 x = 0) ∧ (∀ x ∈ values, 1 ≤ pyint x) then
      .STOICHIOMETRIC
    else .UNKNOWN

/-- Validation errors across the whole hierarchy, one tag per distinct
`ValueError` site; `parse` surfaces the composition parse failure verbatim
and `group` models `ExceptionGroup(tag, children)`. -/
inductive VErr where
  | emptyCode
  | negativeDensity
  | parse (e : ParseErr)
  | unclassifiableComposition
  | singleWeightFractionNotOne
  | weightFractionSumMismatch
  | nonPositiveThickness
  | repeatLessThanOne
  | substrateNotLast (i : Nat)
  | missingSubstrate
  | profileTooShort
  | group (tag : String) (errs : List VErr)

instance : Inhabited Component := ⟨.element 0 []⟩

/-- The weight-fraction sum tolerance `1e-6`. -/
def wfTol : ℚ := mkRat 1 1000000

/-- Embedding of `Material.validate()`: gather the empty-code, negative-density and
composition errors in source order, then fail iff any error was recorded. -/
def Material.validate (m : Material) : Except (List VErr) (List String) :=
  let warns : List String := []
  let errors : List VErr :=
    (if m.code = [] then [.emptyCode] else [])
    ++ (if m.density < 0 then [.negativeDensity] else [])
    ++ (match m.composition with
        | .error e => [.parse e]
        | .ok formula =>
          match m.composition_type with
          | .UNKNOWN => [.unclassifiableComposition]
          | .STOICHIOMETRIC => []
          | .WEIGHT_FRACTION =>
            if formula.length = 1 ∧ ¬ formula.headI.count = 1 then
              [.singleWeightFractionNotOne]
            else
              let counts := formula.map Component.count
              if ¬ |counts.sum - 1| < wfTol then [.weightFractionSumMismatch]
              else [])
  if errors.isEmpty then .ok warns else .error errors

/-! ## Embedding of `src/samplmodls/layer.py` and `src/gsapdef/profile.py` -/

/-- The `Layer` dataclass: a material plus a thickness in nm. -/
structure Layer where
  material : Material
  thickness : ℚ

/-- The section classes that can populate a profile: `Medium`, its subclass
`Substrate`, `Layer` (also a `Medium` subclass, but never an instance of
`Substrate`), and `MultiLayer` with its `repeat : int`. -/
inductive Section where
  | medium (material : Material)
  | substrate (material : Material)
  | layer (l : Layer)
  | multiLayer (layers : List Layer) (rpt : ℤ)

/-- Embedding of `Medium.validate()` (inherited unchanged by `Substrate`): the material's
failure list is wrapped in `ExceptionGroup("field material", ...)`. -/
def Medium.validate (material : Material) : Except (List VErr) (List String) :=
  match material.validate with
  | .ok ws => .ok ws
  | .error es => .error [.group "field material" es]

/-- Embedding of `Layer.validate()`: the `super()` (Medium) failure is wrapped once more as
`ExceptionGroup("field material", ...)`, and the positive-thickness check is
recorded independently. -/
def Layer.validate (l : Layer) : Except (List VErr) (List String) :=
  let (warnings, errors) : List String × List VErr :=
    match Medium.validate l.material with
    | .ok ws => (ws, [])
    | .error es => ([], [.group "field material" es])
  let errors := errors ++ (if ¬ l.thickness > 0 then [.nonPositiveThickness] else [])
  if errors.isEmpty then .ok warnings else .error errors

/-- The `enumerate(self.layers)` loop of `MultiLayer.validate()`, collecting
warnings and index-tagged failures in order. -/
def layersLoop : List Layer → Nat → List String × List VErr
  | [], _ => ([], [])
  | l :: rest, i =>
    let (ws, es) := layersLoop rest (i + 1)
    match l.validate with
    | .ok w => (w ++ ws, es)
    | .error e => (ws, .group ("field layers[" ++ toString i ++ "]") e :: es)

/-- Embedding of `MultiLayer.validate()`: every child layer is validated and tagged by
index, and `repeat >= 1` is checked independently. -/
def MultiLayer.validate (layers : List Layer) (rpt : ℤ) :
    Except (List VErr) (List String) :=
  let (warnings, errors) := layersLoop layers 0
  let errors := errors ++ (if ¬ rpt ≥ 1 then [.repeatLessThanOne] else [])
  if errors.isEmpty then .ok warnings else .error errors

/-- Dynamic dispatch of `section.validate()`. -/
def Section.validate : Section → Except (List VErr) (List String)
  | .medium m => Medium.validate m
  | .substrate m => Medium.validate m
  | .layer l => l.validate
  | .multiLayer layers rpt => MultiLayer.validate layers rpt

/-- Embedding of `isinstance(section, Substrate)`: only `Substrate` itself qualifies. -/
def Section.isSubstrate : Section → Bool
  | .substrate _ => true
  | _ => false

/-- The class `Profile` is a `list[Section]` subclass. -/
abbrev Profile := List Section

/-- The `enumerate(self)` loop of `Profile.validate()`: per section, the
tagged validation failure, then the substrate-misplacement error when a
substrate sits at a non-final index; also tracks `has_substrate`. -/
def sectionsLoop : List Section → Nat → Nat → List String × List VErr × Bool
  | [], _, _ => ([], [], false)
  | s :: rest, i, total =>
    let (ws, es, has) := sectionsLoop rest (i + 1) total
    let (w₁, e₁) : List String × List VErr :=
      match s.validate with
      | .ok w => (w, [])
      | .error e => ([], [.group ("field section[" ++ toString i ++ "]") e])
    let e₂ := if s.isSubstrate = true ∧ i ≠ total - 1 then [VErr.substrateNotLast i] else []
    (w₁ ++ ws, e₁ ++ e₂ ++ es, s.isSubstrate || has)

/-- Embedding of `Profile.validate()`: the length check, the per-section loop, then the
missing-substrate check, all aggregated before deciding. -/
def Profile.validate (p : Profile) : Except (List VErr) (List String) :=
  let lenErr := if ¬ p.length ≥ 2 then [VErr.profileTooShort] else []
  let (warnings, secErrs, has_substrate) := sectionsLoop p 0 p.length
  let missing := if has_substrate = false then [VErr.missingSubstrate] else []
  let errors := lenErr ++ secErrs ++ missing
  if errors.isEmpty then .ok warnings else .error errors

/-- Python's `list * int`: `n` concatenated copies, empty for `n <= 0`. -/
def listMul (l : List α) (n : ℤ) : List α :=
  (List.replicate n.toNat l).flatten

/-- Embedding of `Profile.flatten()`: replace each `MultiLayer` by
`section.layers * section.repeat`, pass every other section through. -/
def Profile.flatten : Profile → List Section
  | [] => []
  | .multiLayer layers rpt :: rest =>
    (listMul layers rpt).map Section.layer ++ Profile.flatten rest
  | s :: rest => s :: Profile.flatten rest


/-! ## The formula grammar

`ElementStr`, `SectionStr`, `GroupStr` are the spec's grammar
`Section := (Element | Group)*`, `Element := UpperLetter LowerLetter* Number?`,
`Group := '(' Section ')' Number?`, read as predicates on strings and
parameterised by the predicate accepted for a `Number` token, so that the
same productions can be instantiated with the spec's `Number` and with the
token set the parser actually accepts. -/

/-- The spec's `Number := Digit+ ('.' Digit+)? | Digit* '.' Digit+`. -/
inductive NumberSpec : List Char → Prop where
  | noDot (ds : List Char) : ds ≠ [] → (∀ c ∈ ds, c.isDigit = true) →
      NumberSpec ds
  | withDot (as bs : List Char) : (∀ c ∈ as, c.isDigit = true) → bs ≠ [] →
      (∀ c ∈ bs, c.isDigit = true) → NumberSpec (as ++ '.' :: bs)

/-- The production `Element := UpperLetter LowerLetter* Number?` over a number-token
predicate. -/
inductive ElementStr (NumP : List Char → Prop) : List Char → Prop where
  | mk (u : Char) (ls ns : List Char) : u.isUpper = true →
      (∀ c ∈ ls, c.isLower = true) → (ns = [] ∨ NumP ns) →
      ElementStr NumP (u :: (ls ++ ns))

mutual

/-- The production `Section := (Element | Group)*` over a number-token predicate. -/
inductive SectionStr (NumP : List Char → Prop) : List Char → Prop where
  | nil : SectionStr NumP []
  | elem (t r : List Char) : ElementStr NumP t → SectionStr NumP r →
      SectionStr NumP (t ++ r)
  | grp (t r : List Char) : GroupStr NumP t → SectionStr NumP r →
      SectionStr NumP (t ++ r)

/-- The production `Group := '(' Section ')' Number?` over a number-token predicate. -/
inductive GroupStr (NumP : List Char → Prop) : List Char → Prop where
  | mk (inner ns : List Char) : SectionStr NumP inner → (ns = [] ∨ NumP ns) →
      GroupStr NumP ('(' :: (inner ++ ')' :: ns))

end

/-- The number tokens `extract_number` actually accepts, together with their
value: a nonempty run of digits and dots with at most one dot, convertible by
`float()` (which only excludes the bare `"."`). -/
def NumTok (tok : List Char) (q : ℚ) : Prop :=
  tok ≠ [] ∧ (∀ c ∈ tok, isNumChar c = true) ∧ tok.count '.' ≤ 1 ∧
    floatOfToken tok = some q

/-- A number token the parser accepts as a subscript: an accepted token whose
value is strictly positive. -/
def NumberPos (tok : List Char) : Prop :=
  ∃ q, NumTok tok q ∧ 0 < q

/-- The language the claim asserts `Formula.from_string` accepts: the spec
grammar with the spec's `Number` tokens. -/
def SpecLang (s : List Char) : Prop := SectionStr NumberSpec s

/-- The language the parser actually accepts: the same productions with
subscript tokens restricted to positive-valued accepted number tokens. -/
def ParserLang (s : List Char) : Prop := SectionStr NumberPos s

/-! ## Claim-side definitions (stated from the spec's words, for comparison
with the embedded code) -/

/-- The claim's reading of one `counts()` entry: an element yields its count,
a group yields the pair of its children's nested counts and its own count. -/
def mirrorOne : Component → NestedFloat
  | .element count _ => .num count
  | .group count comps => .pair (Formula.counts comps) count

mutual

/-- The claim's validity condition for one component: an element's count is a
positive integer; a group defers to its children (its own subscript is not
constrained). -/
def posIntCountsOf : Component → Prop
  | .element count _ => ∃ n : ℤ, 0 < n ∧ count = (n : ℚ)
  | .group _ comps => posIntCountsList comps

/-- The claim's validity condition: every element count at every nesting
depth is a positive integer. -/
def posIntCountsList : List Component → Prop
  | [] => True
  | comp :: rest => posIntCountsOf comp ∧ posIntCountsList rest

end

/-- The property that `q` is an integer. -/
def IsIntRat (q : ℚ) : Prop := ∃ n : ℤ, q = (n : ℚ)

/-- The error list of a validation result (empty on success). -/
def errList : Except (List VErr) (List String) → List VErr
  | .ok _ => []
  | .error es => es

/-- The claim's per-section expansion for `Profile.flatten`: a `MultiLayer`
becomes `repeat` concatenated copies of its layer sequence, every other
section passes through. -/
def expandSection : Section → List Section
  | .multiLayer layers rpt => (listMul layers rpt).map Section.layer
  | s => [s]

/-- The claim that a substrate-misplacement error and a missing-substrate
error can appear in one and the same `Profile.validate()` result. -/
def BothSubstrateErrorsPossible : Prop :=
  ∃ (p : Profile) (i : Nat),
    VErr.substrateNotLast i ∈ errList p.validate ∧
      VErr.missingSubstrate ∈ errList p.validate

/-- The suffix starting at a position does not begin with a digit or dot (the
number scanner consumes nothing there). -/
def HeadNotNum (l : List Char) : Prop :=
  ∀ c, l.head? = some c → isNumChar c = false

/-- The suffix does not begin with a lowercase letter nor a digit/dot, so an
element token ending just before it is maximal. -/
def HeadBoundary (l : List Char) : Prop :=
  ∀ c, l.head? = some c → c.isLower = false ∧ isNumChar c = false

/-- The suffix is where a section stops: end of input or a closing
parenthesis. -/
def HeadClose (l : List Char) : Prop :=
  l.head? = none ∨ l.head? = some ')'

/-! ## Theorems -/

theorem counts_eq_map_mirrorOne : ∀ f : Formula, Formula.counts f = f.map mirrorOne
  | [] => rfl
  | .element q s :: rest => by
    simpa [Formula.counts, countsList, countOf, mirrorOne] using
      counts_eq_map_mirrorOne rest
  | .group q comps :: rest => by
    simpa [Formula.counts, countsList, countOf, mirrorOne] using
      counts_eq_map_mirrorOne rest

/-- Claim C1. `from_string("C6H12O6")` succeeds with elements `{C, H, O}` and
counts `[6.0, 12.0, 6.0]`; `from_string("Mg(OH)2")` succeeds with counts
`[1.0, ([1.0, 1.0], 2.0)]`; and in general `counts()` mirrors the tree shape
(element ↦ its count, group ↦ (children's nested counts, own count)),
preserving top-level order. -/
theorem claim_C1_counts_mirror_tree :
    Formula.from_string "C6H12O6".toList =
      .ok [.element 6 ['C'], .element 12 ['H'], .element 6 ['O']] ∧
    Formula.elements [.element 6 ['C'], .element 12 ['H'], .element 6 ['O']] =
      {['C'], ['H'], ['O']} ∧
    Formula.counts [.element 6 ['C'], .element 12 ['H'], .element 6 ['O']] =
      [.num 6, .num 12, .num 6] ∧
    Formula.from_string "Mg(OH)2".toList =
      .ok [.element 1 ['M', 'g'], .group 2 [.element 1 ['O'], .element 1 ['H']]] ∧
    Formula.counts [.element 1 ['M', 'g'], .group 2 [.element 1 ['O'], .element 1 ['H']]] =
      [.num 1, .pair [.num 1, .num 1] 2] ∧
    ∀ f : Formula, Formula.counts f = f.map mirrorOne := by
  refine ⟨by rfl, by decide, by rfl, by rfl, by rfl, counts_eq_map_mirrorOne⟩

theorem mod1_eq_zero_iff (q : ℚ) : mod1 q = 0 ↔ IsIntRat q := by
  unfold mod1 IsIntRat
  constructor
  · intro h
    exact ⟨⌊q⌋, by linarith⟩
  · rintro ⟨n, rfl⟩
    simp

mutual

theorem chemValidOf_iff : ∀ c : Component, chemValidOf c = true ↔ posIntCountsOf c
  | .element q s => by
    simp only [chemValidOf, posIntCountsOf]
    constructor
    · intro h
      by_cases hm : mod1 q ≠ 0 ∨ q ≤ 0
      · simp [hm] at h
      · push_neg at hm
        obtain ⟨n, rfl⟩ := (mod1_eq_zero_iff q).1 hm.1
        exact ⟨n, by exact_mod_cast hm.2, rfl⟩
    · rintro ⟨n, hn, rfl⟩
      have h1 : mod1 (n : ℚ) = 0 := (mod1_eq_zero_iff _).2 ⟨n, rfl⟩
      have h2 : ¬ (n : ℚ) ≤ 0 := by exact_mod_cast not_le.2 hn
      simp [h1, h2]
  | .group q comps => by
    simpa [chemValidOf, posIntCountsOf] using chemValidList_iff comps

theorem chemValidList_iff : ∀ f : List Component,
    chemValidList f = true ↔ posIntCountsList f
  | [] => by simp [chemValidList, posIntCountsList]
  | c :: rest => by
    simp only [chemValidList, posIntCountsList]
    by_cases h : chemValidOf c = false
    · have hc : ¬ posIntCountsOf c := fun hp => by
        simp [(chemValidOf_iff c).2 hp] at h
      simp [h, hc]
    · have hb : chemValidOf c = true := by
        cases hx : chemValidOf c with
        | false => exact absurd hx h
        | true => rfl
      have hc : posIntCountsOf c := (chemValidOf_iff c).1 hb
      simp [h, hc, chemValidList_iff rest]

end

/-- Claim C3. `is_chem_valid()` holds iff every element count at every nesting
depth is a positive integer (group subscripts unconstrained); true for the
formulas parsed from `"H2O"`, `"Al2(SO4)3"`, `"(AlN)7(ScN)3"`, false for
those from `"H2O0.5"` and `"Al0.7Sc0.3N"`. -/
theorem claim_C3_is_chem_valid :
    (∀ f : Formula, Formula.is_chem_valid f = true ↔ posIntCountsList f) ∧
    (Formula.from_string "H2O".toList).map Formula.is_chem_valid = .ok true ∧
    (Formula.from_string "Al2(SO4)3".toList).map Formula.is_chem_valid = .ok true ∧
    (Formula.from_string "(AlN)7(ScN)3".toList).map Formula.is_chem_valid = .ok true ∧
    (Formula.from_string "H2O0.5".toList).map Formula.is_chem_valid = .ok false ∧
    (Formula.from_string "Al0.7Sc0.3N".toList).map Formula.is_chem_valid = .ok false := by
  exact ⟨chemValidList_iff, by rfl, by rfl, by rfl, by rfl, by rfl⟩

/-- Claim C9. `from_string("")` succeeds with the empty formula; the empty
material is classified `WEIGHT_FRACTION` (the all-in-(0,1) test is vacuous
and checked first), and its `validate()` fails with exactly the empty-code
error and the weight-fraction sum error — never the unclassifiable error. -/
theorem claim_C9_empty_material :
    Formula.from_string [] = .ok [] ∧
    (Material.mk [] 0).composition_type = .WEIGHT_FRACTION ∧
    (Material.mk [] 0).validate =
      .error [.emptyCode, .weightFractionSumMismatch] ∧
    VErr.unclassifiableComposition ∉ errList (Material.mk [] 0).validate := by
  refine ⟨by rfl, by rfl, by rfl, ?_⟩
  rw [show (Material.mk [] 0).validate =
    .error [.emptyCode, .weightFractionSumMismatch] from rfl]
  simp [errList]

theorem pyint_intCast (n : ℤ) : pyint (n : ℚ) = n := by
  unfold pyint
  rw [Rat.num_intCast, Rat.den_intCast]
  exact Int.tdiv_one n

/-- Claim C4. For a material whose composition parsed, `composition_type()`
looks only at top-level counts: all strictly in `(0, 1)` gives
`WEIGHT_FRACTION`, else all integral and `≥ 1` gives `STOICHIOMETRIC`, else
`UNKNOWN`; with `WEIGHT_FRACTION` checked first under strict bounds, a
single-component formula with count exactly `1.0` is `STOICHIOMETRIC`. -/
theorem claim_C4_composition_type :
    (∀ (m : Material) (f : Formula), m.composition = .ok f →
      (m.composition_type = .WEIGHT_FRACTION ↔
        (∀ x ∈ f.map Component.count, 0 < x ∧ x < 1)) ∧
      (m.composition_type = .STOICHIOMETRIC ↔
        (¬ (∀ x ∈ f.map Component.count, 0 < x ∧ x < 1) ∧
          ∀ x ∈ f.map Component.count, IsIntRat x ∧ 1 ≤ x)) ∧
      (m.composition_type = .UNKNOWN ↔
        (¬ (∀ x ∈ f.map Component.count, 0 < x ∧ x < 1) ∧
          ¬ ∀ x ∈ f.map Component.count, IsIntRat x ∧ 1 ≤ x))) ∧
    (Material.mk ['H'] 0).composition_type = .STOICHIOMETRIC := by
  constructor
  · intro m f h
    have key : ((∀ x ∈ f.map Component.count, mod1 x = 0) ∧
        (∀ x ∈ f.map Component.count, 1 ≤ pyint x)) ↔
        (∀ x ∈ f.map Component.count, IsIntRat x ∧ 1 ≤ x) := by
      constructor
      · rintro ⟨h1, h2⟩ x hx
        obtain ⟨n, rfl⟩ := (mod1_eq_zero_iff x).1 (h1 x hx)
        refine ⟨⟨n, rfl⟩, ?_⟩
        have := h2 _ hx
        rw [pyint_intCast] at this
        exact_mod_cast this
      · intro hall
        constructor <;> intro x hx
        · exact (mod1_eq_zero_iff x).2 (hall x hx).1
        · obtain ⟨⟨n, rfl⟩, hge⟩ := hall x hx
          rw [pyint_intCast]
          exact_mod_cast hge
    have hct : m.composition_type =
        (if ∀ x ∈ f.map Component.count, 0 < x ∧ x < 1 then
          CompositionType.WEIGHT_FRACTION
        else if (∀ x ∈ f.map Component.count, mod1 x = 0) ∧
            (∀ x ∈ f.map Component.count, 1 ≤ pyint x) then
          CompositionType.STOICHIOMETRIC
        else CompositionType.UNKNOWN) := by
      simp only [Material.composition_type, h]
    by_cases h1 : ∀ x ∈ f.map Component.count, 0 < x ∧ x < 1
    · rw [hct, if_pos h1]
      exact ⟨iff_of_true rfl h1,
        iff_of_false (by decide) fun hc => hc.1 h1,
        iff_of_false (by decide) fun hc => hc.1 h1⟩
    · by_cases h2 : (∀ x ∈ f.map Component.count, mod1 x = 0) ∧
          (∀ x ∈ f.map Component.count, 1 ≤ pyint x)
      · rw [hct, if_neg h1, if_pos h2]
        exact ⟨iff_of_false (by decide) h1,
          iff_of_true rfl ⟨h1, key.1 h2⟩,
          iff_of_false (by decide) fun hc => hc.2 (key.1 h2)⟩
      · rw [hct, if_neg h1, if_neg h2]
        exact ⟨iff_of_false (by decide) h1,
          iff_of_false (by decide) fun hc => h2 (key.2 hc.2),
          iff_of_true rfl ⟨h1, fun hc => h2 (key.2 hc)⟩⟩
  · rfl

/-- Witness for C4: the single-element material `"H"` (count exactly `1.0`)
instantiates the classification rule and lands in `STOICHIOMETRIC`. -/
theorem claim_C4_composition_type_witness :
    (Material.mk ['H'] 0).composition = .ok [.element 1 ['H']] ∧
    (Material.mk ['H'] 0).composition_type = .STOICHIOMETRIC := by
  have h := (claim_C4_composition_type.1 (Material.mk ['H'] 0)
    [.element 1 ['H']] (by rfl)).2.1
  refine ⟨by rfl, ?_⟩
  refine h.2 ⟨fun hall => ?_, ?_⟩
  · have h1 := hall 1 (by simp [Component.count])
    exact absurd h1.2 (by norm_num)
  · intro x hx
    simp only [List.map, Component.count, List.mem_singleton] at hx
    subst hx
    exact ⟨⟨1, by norm_num⟩, le_refl 1⟩

theorem mem_ite_singleton (a b : VErr) (P : Prop) [Decidable P] :
    a ∈ (if P then [b] else ([] : List VErr)) ↔ P ∧ a = b := by
  split_ifs with h <;> simp [h]

theorem errList_mk (w : List String) (l : List VErr) :
    errList (if l.isEmpty then Except.ok w else Except.error l) = l := by
  cases l <;> rfl

theorem material_validate_errList (m : Material) :
    errList m.validate =
      (if m.code = [] then [VErr.emptyCode] else []) ++
      (if m.density < 0 then [VErr.negativeDensity] else []) ++
      (match m.composition with
        | .error e => [VErr.parse e]
        | .ok formula =>
          match m.composition_type with
          | .UNKNOWN => [VErr.unclassifiableComposition]
          | .STOICHIOMETRIC => []
          | .WEIGHT_FRACTION =>
            if formula.length = 1 ∧ ¬ formula.headI.count = 1 then
              [VErr.singleWeightFractionNotOne]
            else if ¬ |(formula.map Component.count).sum - 1| < wfTol then
              [VErr.weightFractionSumMismatch]
            else []) := by
  unfold Material.validate
  exact errList_mk _ _

/-- Claim C5. For a `WEIGHT_FRACTION` material: with exactly one top-level
component, `validate()` reports the single-component error iff its count is
not exactly `1.0`; with several components it reports the sum-mismatch error
iff the top-level counts do not sum to `1.0` within `1e-6`.  The material
`"Al0.6N0.6"` is classified `WEIGHT_FRACTION` with counts summing to `1.2`
and its `validate()` fails with exactly the sum-mismatch error. -/
theorem claim_C5_weight_fraction_validate :
    (∀ (m : Material) (f : Formula), m.composition = .ok f →
      m.composition_type = .WEIGHT_FRACTION →
      (f.length = 1 →
        (VErr.singleWeightFractionNotOne ∈ errList m.validate ↔
          ¬ f.headI.count = 1)) ∧
      (2 ≤ f.length →
        (VErr.weightFractionSumMismatch ∈ errList m.validate ↔
          ¬ |(f.map Component.count).sum - 1| < wfTol))) ∧
    (Material.mk "Al0.6N0.6".toList 0).composition_type = .WEIGHT_FRACTION ∧
    (Formula.from_string "Al0.6N0.6".toList).map
      (fun f => (f.map Component.count).sum) = .ok (mkRat 6 5) ∧
    (Material.mk "Al0.6N0.6".toList 0).validate =
      .error [.weightFractionSumMismatch] := by
  refine ⟨?_, by rfl, by rfl, by rfl⟩
  intro m f h hwf
  have hE := material_validate_errList m
  rw [h, hwf] at hE
  simp only [] at hE
  constructor
  · intro hl
    by_cases hc : f.headI.count = 1
    · have hcond : ¬ (f.length = 1 ∧ ¬ f.headI.count = 1) := fun hx => hx.2 hc
      rw [hE, if_neg hcond]
      simp [List.mem_append, mem_ite_singleton, hc]
    · have hcond : f.length = 1 ∧ ¬ f.headI.count = 1 := ⟨hl, hc⟩
      rw [hE, if_pos hcond]
      simp [hc]
  · intro hl2
    have hcond : ¬ (f.length = 1 ∧ ¬ f.headI.count = 1) := by
      rintro ⟨h1, _⟩
      omega
    rw [hE, if_neg hcond]
    by_cases hs : |(f.map Component.count).sum - 1| < wfTol
    · rw [if_neg (not_not_intro hs)]
      simp [List.mem_append, mem_ite_singleton, hs]
    · rw [if_pos hs]
      simp [hs]

/-- Witness for C5: the two-component weight-fraction material
`"Al0.6N0.6"`, whose counts sum to `1.2`, carries the sum-mismatch error. -/
theorem claim_C5_weight_fraction_validate_witness :
    VErr.weightFractionSumMismatch ∈
      errList (Material.mk "Al0.6N0.6".toList 0).validate := by
  have h := (claim_C5_weight_fraction_validate.1
    (Material.mk "Al0.6N0.6".toList 0)
    [.element (mkRat 3 5) ['A', 'l'], .element (mkRat 3 5) ['N']]
    (by rfl) (by rfl)).2 (by norm_num)
  refine h.2 ?_
  rw [show ((([Component.element (mkRat 3 5) ['A', 'l'],
    Component.element (mkRat 3 5) ['N']] : Formula).map
      Component.count).sum - 1) = mkRat 1 5 from by rfl]
  rw [show |(mkRat 1 5 : ℚ)| = mkRat 1 5 from by rfl]
  decide

theorem expandSection_non_multi (s : Section)
    (h : ∀ layers rpt, s ≠ .multiLayer layers rpt) : expandSection s = [s] := by
  cases s with
  | multiLayer layers rpt => exact absurd rfl (h layers rpt)
  | medium m => rfl
  | substrate m => rfl
  | layer l => rfl

theorem flatten_eq_flatMap : ∀ p : Profile, Profile.flatten p = p.flatMap expandSection
  | [] => rfl
  | .multiLayer layers rpt :: rest => by
    simp only [Profile.flatten, List.flatMap_cons, expandSection]
    rw [flatten_eq_flatMap rest]
  | .medium m :: rest => by
    simp only [Profile.flatten, List.flatMap_cons, expandSection]
    rw [flatten_eq_flatMap rest]
    rfl
  | .substrate m :: rest => by
    simp only [Profile.flatten, List.flatMap_cons, expandSection]
    rw [flatten_eq_flatMap rest]
    rfl
  | .layer l :: rest => by
    simp only [Profile.flatten, List.flatMap_cons, expandSection]
    rw [flatten_eq_flatMap rest]
    rfl

/-- Claim C7. `flatten()` replaces each `MultiLayer`, in place, by `repeat`
concatenated copies of its layer sequence while other sections pass through
(it is a pure function of the section list, which is left untouched); a
profile of two layers, a `repeat = 4` multilayer over two layers, and a
substrate flattens to `2 + 4*2 + 1 = 11` sections. -/
theorem claim_C7_flatten_expands_multilayers :
    (∀ p : Profile, Profile.flatten p = p.flatMap expandSection) ∧
    ∀ (a b l1 l2 : Layer) (m : Material),
      (Profile.flatten [.layer a, .layer b, .multiLayer [l1, l2] 4,
        .substrate m]).length = 11 := by
  refine ⟨flatten_eq_flatMap, fun a b l1 l2 m => by rfl⟩

theorem flatten_append : ∀ p q : Profile,
    Profile.flatten (p ++ q) = Profile.flatten p ++ Profile.flatten q
  | [], q => rfl
  | s :: rest, q => by
    have ih := flatten_append rest q
    cases s with
    | multiLayer layers rpt =>
      show List.map Section.layer (listMul layers rpt) ++ Profile.flatten (rest ++ q) =
        (List.map Section.layer (listMul layers rpt) ++ Profile.flatten rest) ++
          Profile.flatten q
      rw [ih, List.append_assoc]
    | medium m =>
      show Section.medium m :: Profile.flatten (rest ++ q) = _
      rw [ih]
      rfl
    | substrate m =>
      show Section.substrate m :: Profile.flatten (rest ++ q) = _
      rw [ih]
      rfl
    | layer l =>
      show Section.layer l :: Profile.flatten (rest ++ q) = _
      rw [ih]
      rfl

theorem multiLayer_errList (layers : List Layer) (rpt : ℤ) :
    errList (MultiLayer.validate layers rpt) =
      (layersLoop layers 0).2 ++ (if ¬ rpt ≥ 1 then [VErr.repeatLessThanOne] else []) := by
  unfold MultiLayer.validate
  rcases hp : layersLoop layers 0 with ⟨ws, es⟩
  exact errList_mk _ _

theorem layersLoop_shapes (layers : List Layer) (i : Nat) :
    ∀ e ∈ (layersLoop layers i).2, ∃ t l, e = VErr.group t l := by
  induction layers generalizing i with
  | nil => intro e he; simp [layersLoop] at he
  | cons l rest ih =>
    intro e he
    simp only [layersLoop] at he
    rcases hv : l.validate with es | ws <;> rw [hv] at he
    · rcases List.mem_cons.1 he with rfl | he
      · exact ⟨_, _, rfl⟩
      · exact ih (i + 1) e he
    · exact ih (i + 1) e he

theorem repeatErr_mem_iff (layers : List Layer) (rpt : ℤ) :
    VErr.repeatLessThanOne ∈ errList (MultiLayer.validate layers rpt) ↔ rpt < 1 := by
  rw [multiLayer_errList, List.mem_append]
  constructor
  · rintro (h | h)
    · obtain ⟨t, l, hl⟩ := layersLoop_shapes layers 0 _ h
      cases hl
    · by_cases hr : rpt ≥ 1
      · simp [hr] at h
      · omega
  · intro h
    have hr : ¬ rpt ≥ 1 := by omega
    simp [hr]

theorem layersLoop_mem_of_failure (layers : List Layer) :
    ∀ (i j : Nat) (hj : j < layers.length) (e : List VErr),
      layers[j].validate = .error e →
      VErr.group ("field layers[" ++ toString (i + j) ++ "]") e ∈
        (layersLoop layers i).2 := by
  induction layers with
  | nil =>
    intro i j hj
    simp at hj
  | cons l rest ih =>
    intro i j hj e he
    cases j with
    | zero =>
      simp only [List.getElem_cons_zero] at he
      simp [layersLoop, he]
    | succ j =>
      simp only [List.getElem_cons_succ] at he
      have := ih (i + 1) j (by simpa using hj) e he
      rw [show i + (j + 1) = (i + 1) + j from by omega]
      simp only [layersLoop]
      rcases hv : l.validate with es | ws <;> simp [this]

theorem layer_errList (l : Layer) :
    errList l.validate =
      (match Medium.validate l.material with
        | .ok _ => []
        | .error es => [VErr.group "field material" es]) ++
      (if ¬ l.thickness > 0 then [VErr.nonPositiveThickness] else []) := by
  unfold Layer.validate
  rcases hv : Medium.validate l.material with es | ws <;> exact errList_mk _ _

/-- Claim C8. One `validate()` call aggregates every applicable defect rather
than stopping at the first: for `MultiLayer`, each failing child layer
contributes its index-tagged failure and `repeat >= 1` is reported
independently (iff `repeat < 1`); a layer's thickness error and a material's
empty-code / negative-density errors likewise appear exactly when their own
condition fails, regardless of the other checks; a multilayer with one
zero-thickness layer and `repeat = 0` returns both errors in one result. -/
theorem claim_C8_validate_aggregates :
    (∀ (layers : List Layer) (rpt : ℤ),
      (VErr.repeatLessThanOne ∈ errList (MultiLayer.validate layers rpt) ↔
        rpt < 1) ∧
      ∀ (j : Nat) (hj : j < layers.length) (e : List VErr),
        layers[j].validate = .error e →
        VErr.group ("field layers[" ++ toString j ++ "]") e ∈
          errList (MultiLayer.validate layers rpt)) ∧
    (∀ l : Layer,
      VErr.nonPositiveThickness ∈ errList l.validate ↔ ¬ l.thickness > 0) ∧
    (∀ m : Material,
      (VErr.emptyCode ∈ errList m.validate ↔ m.code = []) ∧
      (VErr.negativeDensity ∈ errList m.validate ↔ m.density < 0)) ∧
    MultiLayer.validate [Layer.mk (Material.mk ['S', 'i'] 1) 0] 0 =
      .error [.group "field layers[0]" [.nonPositiveThickness],
        .repeatLessThanOne] := by
  refine ⟨fun layers rpt => ⟨repeatErr_mem_iff layers rpt, ?_⟩, ?_, ?_, by rfl⟩
  · intro j hj e he
    rw [multiLayer_errList, List.mem_append]
    exact Or.inl (by simpa using layersLoop_mem_of_failure layers 0 j hj e he)
  · intro l
    rw [layer_errList, List.mem_append]
    constructor
    · rintro (h | h)
      · rcases hv : Medium.validate l.material with es | ws <;> rw [hv] at h <;>
          simp at h
      · by_cases ht : l.thickness > 0
        · simp [ht] at h
        · exact ht
    · intro ht
      simp [ht]
  · intro m
    have hE := material_validate_errList m
    constructor <;> rw [hE] <;> simp only [List.mem_append] <;> constructor
    · rintro ((h | h) | h)
      · by_cases hc : m.code = []
        · exact hc
        · simp [hc] at h
      · split_ifs at h <;> simp_all
      · rcases hcomp : m.composition with e | f <;> rw [hcomp] at h
        · simp at h
        · rcases hct : m.composition_type <;> rw [hct] at h <;>
            try simp at h
          split_ifs at h <;> simp_all
    · intro hc
      exact Or.inl (Or.inl (by simp [hc]))
    · rintro ((h | h) | h)
      · split_ifs at h <;> simp_all
      · by_cases hd : m.density < 0
        · exact hd
        · simp [hd] at h
      · rcases hcomp : m.composition with e | f <;> rw [hcomp] at h
        · simp at h
        · rcases hct : m.composition_type <;> rw [hct] at h <;>
            try simp at h
          split_ifs at h <;> simp_all
    · intro hd
      exact Or.inl (Or.inr (by simp [hd]))

/-- Witness for C8: a multilayer holding one zero-thickness layer with
`repeat = 0` exhibits, in a single result, both the index-tagged layer
failure and the repeat error. -/
theorem claim_C8_validate_aggregates_witness :
    (VErr.repeatLessThanOne ∈
      errList (MultiLayer.validate [Layer.mk (Material.mk ['S', 'i'] 1) 0] 0) ↔
      (0 : ℤ) < 1) ∧
    VErr.group "field layers[0]" [.nonPositiveThickness] ∈
      errList (MultiLayer.validate [Layer.mk (Material.mk ['S', 'i'] 1) 0] 0) := by
  constructor
  · simpa using
      (claim_C8_validate_aggregates.1 [Layer.mk (Material.mk ['S', 'i'] 1) 0] 0).1
  · exact (claim_C8_validate_aggregates.1 [Layer.mk (Material.mk ['S', 'i'] 1) 0] 0).2
      0 (by norm_num) [.nonPositiveThickness] (by rfl)

/-- Claim C10. `flatten()` never checks `repeat`: a `MultiLayer` with
`repeat <= 0` expands to the empty list (Python list multiplication by a
non-positive integer), so it silently vanishes from the flattened output,
even though `validate()` on such a multilayer reports the repeat error. -/
theorem claim_C10_flatten_drops_nonpositive_repeat :
    ∀ (layers : List Layer) (rpt : ℤ), rpt ≤ 0 →
      expandSection (.multiLayer layers rpt) = [] ∧
      (∀ pre post : Profile,
        Profile.flatten (pre ++ .multiLayer layers rpt :: post) =
          Profile.flatten pre ++ Profile.flatten post) ∧
      VErr.repeatLessThanOne ∈ errList (MultiLayer.validate layers rpt) := by
  intro layers rpt hr
  have hmul : listMul layers rpt = [] := by
    unfold listMul
    rw [Int.toNat_of_nonpos hr]
    rfl
  refine ⟨by simp [expandSection, hmul], ?_, (repeatErr_mem_iff layers rpt).2 (by omega)⟩
  intro pre post
  rw [flatten_append]
  simp only [Profile.flatten, hmul, List.map_nil, List.nil_append]

/-- Witness for C10: a `repeat = -1` multilayer vanishes from `flatten()` yet
its `validate()` carries the repeat error. -/
theorem claim_C10_flatten_drops_nonpositive_repeat_witness :
    expandSection (.multiLayer ([] : List Layer) (-1)) = [] ∧
    (Profile.flatten [Section.multiLayer ([] : List Layer) (-1)] = []) ∧
    VErr.repeatLessThanOne ∈ errList (MultiLayer.validate ([] : List Layer) (-1)) := by
  have h := claim_C10_flatten_drops_nonpositive_repeat [] (-1) (by norm_num)
  refine ⟨h.1, ?_, h.2.2⟩
  simpa using h.2.1 [] []

theorem sectionsLoop_has (sections : List Section) :
    ∀ i total, (sectionsLoop sections i total).2.2 =
      sections.any Section.isSubstrate := by
  induction sections with
  | nil => intro i total; rfl
  | cons s rest ih =>
    intro i total
    simp only [sectionsLoop, List.any_cons, ← ih (i + 1) total]

theorem sectionsLoop_cons_errs (s : Section) (rest : List Section) (i total : Nat) :
    (sectionsLoop (s :: rest) i total).2.1 =
      (match s.validate with
        | .ok _ => []
        | .error e => [VErr.group ("field section[" ++ toString i ++ "]") e]) ++
      (if s.isSubstrate = true ∧ i ≠ total - 1 then [VErr.substrateNotLast i]
        else []) ++
      (sectionsLoop rest (i + 1) total).2.1 := by
  simp only [sectionsLoop]
  rcases s.validate with es | ws <;> rfl

theorem sectionsLoop_shapes (sections : List Section) :
    ∀ i total, ∀ e ∈ (sectionsLoop sections i total).2.1,
      (∃ t l, e = VErr.group t l) ∨ ∃ j, e = VErr.substrateNotLast j := by
  induction sections with
  | nil => intro i total e he; simp [sectionsLoop] at he
  | cons s rest ih =>
    intro i total e he
    rw [sectionsLoop_cons_errs, List.mem_append, List.mem_append] at he
    rcases he with (he | he) | he
    · rcases hv : s.validate with es | ws <;> rw [hv] at he
      · simp only [List.mem_singleton] at he
        exact Or.inl ⟨_, _, he⟩
      · simp at he
    · split_ifs at he with hc
      · simp only [List.mem_singleton] at he
        exact Or.inr ⟨i, he⟩
      · simp at he
    · exact ih (i + 1) total e he

theorem sectionsLoop_misplaced_iff (sections : List Section) :
    ∀ i total j,
      (VErr.substrateNotLast j ∈ (sectionsLoop sections i total).2.1 ↔
        ∃ k, ∃ hk : k < sections.length,
          i + k = j ∧ sections[k].isSubstrate = true ∧ j ≠ total - 1) := by
  induction sections with
  | nil =>
    intro i total j
    simp [sectionsLoop]
  | cons s rest ih =>
    intro i total j
    rw [sectionsLoop_cons_errs, List.mem_append, List.mem_append]
    constructor
    · rintro ((h | h) | h)
      · rcases hv : s.validate with es | ws <;> rw [hv] at h <;> simp at h
      · split_ifs at h with hc
        · simp only [List.mem_singleton, VErr.substrateNotLast.injEq] at h
          subst h
          exact ⟨0, by simp, by omega, by simpa using hc.1, by
            simpa using hc.2⟩
        · simp at h
      · obtain ⟨k, hk, hik, hsub, hne⟩ := (ih (i + 1) total j).1 h
        exact ⟨k + 1, by simpa using hk, by omega, by simpa using hsub, hne⟩
    · rintro ⟨k, hk, hik, hsub, hne⟩
      cases k with
      | zero =>
        refine Or.inl (Or.inr ?_)
        rw [if_pos ⟨by simpa using hsub, by omega⟩]
        simp only [List.mem_singleton, VErr.substrateNotLast.injEq]
        omega
      | succ k =>
        refine Or.inr ((ih (i + 1) total j).2 ?_)
        exact ⟨k, by simpa using hk, by omega, by simpa using hsub, hne⟩

theorem profile_validate_errList (p : Profile) :
    errList p.validate =
      (if ¬ p.length ≥ 2 then [VErr.profileTooShort] else []) ++
      (sectionsLoop p 0 p.length).2.1 ++
      (if (sectionsLoop p 0 p.length).2.2 = false then [VErr.missingSubstrate]
        else []) := by
  unfold Profile.validate
  rcases hp : sectionsLoop p 0 p.length with ⟨ws, es, has⟩
  exact errList_mk _ _

theorem profile_isOk_iff (p : Profile) :
    (p.validate).isOk = true ↔ errList p.validate = [] := by
  unfold Profile.validate
  rcases hp : sectionsLoop p 0 p.length with ⟨ws, es, has⟩
  set l := (if ¬ p.length ≥ 2 then [VErr.profileTooShort] else []) ++ es ++
    (if has = false then [VErr.missingSubstrate] else []) with hl
  show (if l.isEmpty then (Except.ok ws : Except (List VErr) (List String))
    else Except.error l).isOk = true ↔
    errList (if l.isEmpty then (Except.ok ws : Except (List VErr) (List String))
      else Except.error l) = []
  rcases l with _ | ⟨e, l'⟩ <;> simp [Except.isOk, Except.toBool, errList]

theorem tooShort_notin_parts (p : Profile) (e : VErr) :
    e ∈ (if ¬ p.length ≥ 2 then [VErr.profileTooShort] else []) →
      e = VErr.profileTooShort := by
  split_ifs with h <;> simp_all

theorem misplaced_missing_exclusive (p : Profile) :
    ¬ ∃ i, VErr.substrateNotLast i ∈ errList p.validate ∧
      VErr.missingSubstrate ∈ errList p.validate := by
  rintro ⟨i, hmis, hmiss⟩
  have hE := profile_validate_errList p
  rw [hE, List.mem_append, List.mem_append] at hmis hmiss
  have hfalse : (sectionsLoop p 0 p.length).2.2 = false := by
    rcases hmiss with (h | h) | h
    · exact absurd (tooShort_notin_parts p _ h) (by simp)
    · rcases sectionsLoop_shapes p 0 p.length _ h with ⟨t, l, hx⟩ | ⟨j, hx⟩ <;>
        cases hx
    · by_cases hc : (sectionsLoop p 0 p.length).2.2 = false
      · exact hc
      · simp [hc] at h
  have hmem : VErr.substrateNotLast i ∈ (sectionsLoop p 0 p.length).2.1 := by
    rcases hmis with (h | h) | h
    · exact absurd (tooShort_notin_parts p _ h) (by simp)
    · exact h
    · split_ifs at h <;> simp_all
  obtain ⟨k, hk, _, hsub, _⟩ := (sectionsLoop_misplaced_iff p 0 p.length i).1 hmem
  rw [sectionsLoop_has p 0 p.length] at hfalse
  have : p.any Section.isSubstrate = true :=
    List.any_eq_true.2 ⟨p[k], List.getElem_mem hk, hsub⟩
  rw [hfalse] at this
  cases this

/-- Claim C6, amended. `Profile.validate()` succeeds only when the profile has
length at least 2 and contains exactly one `Substrate`, located at the final
index; every substrate at a non-final index yields a misplacement error and a
substrate-free profile yields the missing-substrate error; the two checks are
separate code paths but mutually exclusive — a misplacement error presupposes
a substrate exists, so the two errors never appear in the same result. -/
theorem claim_C6_profile_substrate_checks :
    ∀ p : Profile,
      ((p.validate).isOk = true →
        2 ≤ p.length ∧
        ∀ i (hi : i < p.length), (p[i].isSubstrate = true ↔ i = p.length - 1)) ∧
      (∀ i (hi : i < p.length), p[i].isSubstrate = true → i ≠ p.length - 1 →
        VErr.substrateNotLast i ∈ errList p.validate) ∧
      ((∀ s ∈ p, s.isSubstrate = false) →
        VErr.missingSubstrate ∈ errList p.validate) ∧
      ¬ ∃ i, VErr.substrateNotLast i ∈ errList p.validate ∧
        VErr.missingSubstrate ∈ errList p.validate := by
  intro p
  have hE := profile_validate_errList p
  refine ⟨?_, ?_, ?_, misplaced_missing_exclusive p⟩
  · intro hok
    have h0 := (profile_isOk_iff p).1 hok
    rw [hE] at h0
    rw [List.append_eq_nil, List.append_eq_nil] at h0
    obtain ⟨⟨hlen, hloop⟩, hmiss⟩ := h0
    have h2 : 2 ≤ p.length := by
      by_cases hc : p.length ≥ 2
      · exact hc
      · simp [hc] at hlen
    have hany : p.any Section.isSubstrate = true := by
      by_cases hc : (sectionsLoop p 0 p.length).2.2 = false
      · simp [hc] at hmiss
      · rw [← sectionsLoop_has p 0 p.length]
        cases hx : (sectionsLoop p 0 p.length).2.2
        · exact absurd hx hc
        · rfl
    have hnomis : ∀ j (hj : j < p.length), p[j].isSubstrate = true →
        j = p.length - 1 := by
      intro j hj hsub
      by_contra hne
      have := (sectionsLoop_misplaced_iff p 0 p.length j).2
        ⟨j, hj, by omega, hsub, hne⟩
      rw [hloop] at this
      cases this
    refine ⟨h2, fun i hi => ⟨hnomis i hi, ?_⟩⟩
    intro hi_eq
    obtain ⟨s, hs, hsub⟩ := List.any_eq_true.1 hany
    obtain ⟨k, hk, rfl⟩ := List.mem_iff_getElem.1 hs
    have hk_eq := hnomis k hk hsub
    subst hi_eq
    subst hk_eq
    exact hsub
  · intro i hi hsub hne
    rw [hE, List.mem_append, List.mem_append]
    exact Or.inl (Or.inr
      ((sectionsLoop_misplaced_iff p 0 p.length i).2 ⟨i, hi, by omega, hsub, hne⟩))
  · intro hnone
    rw [hE, List.mem_append]
    refine Or.inr ?_
    have : p.any Section.isSubstrate = false :=
      List.any_eq_false.2 fun s hs => by simp [hnone s hs]
    rw [if_pos (by rw [sectionsLoop_has p 0 p.length]; exact this)]
    simp

/-- Counterexample for C6 as stated: the misplacement and missing-substrate
errors can never fire in the same `Profile.validate()` result, because a
misplaced substrate is in particular a substrate. -/
theorem claim_C6_counterexample : ¬ BothSubstrateErrorsPossible := by
  rintro ⟨p, i, h1, h2⟩
  exact misplaced_missing_exclusive p ⟨i, h1, h2⟩

/-- Witness for C6: a two-section profile whose substrate sits first carries
the misplacement error for index 0. -/
theorem claim_C6_profile_substrate_checks_witness :
    VErr.substrateNotLast 0 ∈
      errList (Profile.validate [.substrate (Material.mk ['S', 'i'] 1),
        .layer (Layer.mk (Material.mk ['A', 'l'] 1) 1)]) := by
  exact (claim_C6_profile_substrate_checks
    [.substrate (Material.mk ['S', 'i'] 1),
      .layer (Layer.mk (Material.mk ['A', 'l'] 1) 1)]).2.1 0 (by norm_num)
    (by rfl) (by norm_num)

/-! ## Parser–grammar equivalence (C2): character classes -/

theorem isDigit_nat (c : Char) :
    c.isDigit = true ↔ 48 ≤ c.val.toNat ∧ c.val.toNat ≤ 57 := by
  simp only [Char.isDigit, Bool.and_eq_true, decide_eq_true_eq, UInt32.le_def,
    BitVec.le_def, show (UInt32.toBitVec 48).toNat = 48 from rfl,
    show (UInt32.toBitVec 57).toNat = 57 from rfl]
  exact Iff.rfl

theorem isLower_nat (c : Char) :
    c.isLower = true ↔ 97 ≤ c.val.toNat ∧ c.val.toNat ≤ 122 := by
  simp only [Char.isLower, Bool.and_eq_true, decide_eq_true_eq, UInt32.le_def,
    BitVec.le_def, show (UInt32.toBitVec 97).toNat = 97 from rfl,
    show (UInt32.toBitVec 122).toNat = 122 from rfl]
  exact Iff.rfl

theorem isUpper_nat (c : Char) :
    c.isUpper = true ↔ 65 ≤ c.val.toNat ∧ c.val.toNat ≤ 90 := by
  simp only [Char.isUpper, Bool.and_eq_true, decide_eq_true_eq, UInt32.le_def,
    BitVec.le_def, show (UInt32.toBitVec 65).toNat = 65 from rfl,
    show (UInt32.toBitVec 90).toNat = 90 from rfl]
  exact Iff.rfl

theorem numChar_cases (c : Char) (h : isNumChar c = true) :
    c.isDigit = true ∨ c = '.' := by
  rcases Bool.or_eq_true_iff.1 h with h | h
  · exact Or.inl h
  · exact Or.inr (by simpa using h)

theorem isLower_false_of_numChar (c : Char) (h : isNumChar c = true) :
    c.isLower = false := by
  rcases numChar_cases c h with h | rfl
  · cases hx : c.isLower with
    | false => rfl
    | true =>
      have h1 := (isDigit_nat c).1 h
      have h2 := (isLower_nat c).1 hx
      omega
  · rfl

theorem isUpper_false_of_numChar (c : Char) (h : isNumChar c = true) :
    c.isUpper = false := by
  rcases numChar_cases c h with h | rfl
  · cases hx : c.isUpper with
    | false => rfl
    | true =>
      have h1 := (isDigit_nat c).1 h
      have h2 := (isUpper_nat c).1 hx
      omega
  · rfl

theorem isLower_false_of_isUpper (c : Char) (h : c.isUpper = true) :
    c.isLower = false := by
  cases hx : c.isLower with
  | false => rfl
  | true =>
    have h1 := (isUpper_nat c).1 h
    have h2 := (isLower_nat c).1 hx
    omega

theorem numChar_false_of_isUpper (c : Char) (h : c.isUpper = true) :
    isNumChar c = false := by
  cases hx : isNumChar c with
  | false => rfl
  | true =>
    rcases numChar_cases c hx with hd | rfl
    · have h1 := (isUpper_nat c).1 h
      have h2 := (isDigit_nat c).1 hd
      omega
    · exact absurd h (by decide)

/-! ## Parser–grammar equivalence (C2): suffix bookkeeping -/

theorem getAt_of_drop_eq {s : List Char} {i : Nat} {c : Char} {rest : List Char}
    (h : s.drop i = c :: rest) : s[i]? = some c := by
  have := List.getElem?_drop s i 0
  rw [h] at this
  simpa using this.symm

theorem drop_succ_of_drop_eq {s : List Char} {i : Nat} {c : Char} {rest : List Char}
    (h : s.drop i = c :: rest) : s.drop (i + 1) = rest := by
  rw [← List.drop_drop 1 i s, h]
  rfl

theorem takeWhile_all_append (p : Char → Bool) (l₁ l₂ : List Char)
    (h1 : ∀ c ∈ l₁, p c = true)
    (h2 : ∀ c, l₂.head? = some c → p c = false) :
    (l₁ ++ l₂).takeWhile p = l₁ := by
  induction l₁ with
  | nil =>
    cases l₂ with
    | nil => rfl
    | cons c cs => simp [List.takeWhile_cons, h2 c rfl]
  | cons a l ih =>
    rw [List.cons_append, List.takeWhile_cons,
      if_pos (h1 a (List.mem_cons_self _ _)),
      ih fun c hc => h1 c (List.mem_cons_of_mem a hc)]

theorem drop_take_append (s : List Char) (i m j : Nat) (him : i ≤ m) (hmj : m ≤ j) :
    (s.drop i).take (j - i) = (s.drop i).take (m - i) ++ (s.drop m).take (j - m) := by
  have hsplit : j - i = (m - i) + (j - m) := by omega
  rw [hsplit, List.take_add, List.drop_drop]
  rw [show i + (m - i) = m from by omega]

/-! ## Parser–grammar equivalence (C2): the number scanner -/

theorem scanNum_cons (c : Char) (cs : List Char) (df : Bool) :
    scanNum (c :: cs) df =
      if ¬ isNumChar c then .ok 0
      else if c = '.' then
        if df then .error .multipleDecimals
        else
          match scanNum cs true with
          | .ok k => .ok (k + 1)
          | .error e => .error e
      else
        match scanNum cs df with
        | .ok k => .ok (k + 1)
        | .error e => .error e := rfl

theorem scanNum_append_of (tok rest : List Char) (df : Bool)
    (hall : ∀ c ∈ tok, isNumChar c = true)
    (hdot : tok.count '.' + (if df then 1 else 0) ≤ 1)
    (hrest : HeadNotNum rest) :
    scanNum (tok ++ rest) df = .ok tok.length := by
  induction tok generalizing df with
  | nil =>
    cases hr : rest with
    | nil => rfl
    | cons c cs =>
      have := hrest c (by rw [hr]; rfl)
      simp [scanNum, this]
  | cons c cs ih =>
    have hc := hall c (List.mem_cons_self _ _)
    have hall2 : ∀ x ∈ cs, isNumChar x = true :=
      fun x hx => hall x (List.mem_cons_of_mem c hx)
    rw [List.cons_append, scanNum_cons, if_neg fun hn => hn hc]
    by_cases hdotc : c = '.'
    · subst hdotc
      have hcc : ('.' :: cs).count '.' = cs.count '.' + 1 := by
        simp [List.count_cons]
      rw [hcc] at hdot
      have hdf : df = false := by
        cases df with
        | false => rfl
        | true =>
          rw [if_pos rfl] at hdot
          omega
      subst hdf
      have hdot2 : cs.count '.' + (if (true : Bool) then 1 else 0) ≤ 1 := by
        rw [if_neg (by simp)] at hdot
        rw [if_pos rfl]
        omega
      rw [if_pos rfl, if_neg (by simp), ih true hall2 hdot2]
      rfl
    · have hcc : (c :: cs).count '.' = cs.count '.' := by
        simp [List.count_cons, hdotc]
      rw [hcc] at hdot
      rw [if_neg hdotc, ih df hall2 hdot]
      rfl

theorem scanNum_sound : ∀ (cs : List Char) (df : Bool) (k : Nat),
    scanNum cs df = .ok k →
    k ≤ cs.length ∧ (∀ c ∈ cs.take k, isNumChar c = true) ∧
      (cs.take k).count '.' + (if df then 1 else 0) ≤ 1 ∧
      HeadNotNum (cs.drop k) := by
  intro cs
  induction cs with
  | nil =>
    intro df k h
    rw [show scanNum [] df = .ok 0 from rfl] at h
    injection h with h
    subst h
    refine ⟨Nat.le_refl 0, by simp, ?_, by intro c hc; cases hc⟩
    cases df <;> simp
  | cons c cs ih =>
    intro df k h
    rw [scanNum_cons] at h
    by_cases hnc : isNumChar c = true
    · rw [if_neg fun hn => hn hnc] at h
      by_cases hdotc : c = '.'
      · subst hdotc
        rw [if_pos rfl] at h
        cases df with
        | true => rw [if_pos rfl] at h; cases h
        | false =>
          rw [if_neg (by simp)] at h
          cases hres : scanNum cs true with
          | error e => rw [hres] at h; cases h
          | ok k2 =>
            rw [hres] at h
            injection h with h
            subst h
            obtain ⟨hk, hall, hcount, hhead⟩ := ih true k2 hres
            refine ⟨by simpa using hk, ?_, ?_, by simpa using hhead⟩
            · intro x hx
              rw [List.take_succ_cons] at hx
              rcases List.mem_cons.1 hx with rfl | hx
              · rfl
              · exact hall x hx
            · rw [List.take_succ_cons]
              rw [if_pos rfl] at hcount
              rw [if_neg (by simp : ¬ (false = true))]
              have hcc : List.count '.' ('.' :: List.take k2 cs) =
                  List.count '.' (List.take k2 cs) + 1 := by
                simp [List.count_cons]
              omega
      · rw [if_neg hdotc] at h
        cases hres : scanNum cs df with
        | error e => rw [hres] at h; cases h
        | ok k2 =>
          rw [hres] at h
          injection h with h
          subst h
          obtain ⟨hk, hall, hcount, hhead⟩ := ih df k2 hres
          refine ⟨by simpa using hk, ?_, ?_, by simpa using hhead⟩
          · intro x hx
            rw [List.take_succ_cons] at hx
            rcases List.mem_cons.1 hx with rfl | hx
            · exact hnc
            · exact hall x hx
          · rw [List.take_succ_cons]
            have h2 : ('.' : Char) ≠ c := fun hh => hdotc hh.symm
            have hcc : List.count '.' (c :: List.take k2 cs) =
                List.count '.' (List.take k2 cs) := by
              simp [List.count_cons, h2, hdotc]
            omega
    · rw [if_pos fun hn => hnc hn] at h
      injection h with h
      subst h
      refine ⟨Nat.zero_le _, by simp, ?_, ?_⟩
      · cases df <;> simp
      · intro x hx
        rw [List.drop_zero] at hx
        injection hx with h2
        rw [← h2]
        cases hy : isNumChar c with
        | false => rfl
        | true => exact absurd hy hnc

theorem extract_number_sound (s : List Char) (i : Nat) (q : ℚ) (j : Nat)
    (h : extract_number s i = .ok (q, j)) :
    i < j ∧ j - i ≤ (s.drop i).length ∧ NumTok ((s.drop i).take (j - i)) q ∧
      HeadNotNum (s.drop j) := by
  unfold extract_number at h
  cases hscan : scanNum (s.drop i) false with
  | error e => rw [hscan] at h; cases h
  | ok k =>
    rw [hscan] at h
    simp only [] at h
    by_cases hk0 : k = 0
    · rw [if_pos hk0] at h; cases h
    · rw [if_neg hk0] at h
      cases hf : floatOfToken ((s.drop i).take k) with
      | none => rw [hf] at h; cases h
      | some q2 =>
        rw [hf] at h
        injection h with h
        injection h with h1 h2
        subst h1
        subst h2
        obtain ⟨hk, hall, hcount, hhead⟩ := scanNum_sound (s.drop i) false k hscan
        have hji : i + k - i = k := by omega
        rw [hji]
        refine ⟨by omega, hk, ⟨?_, hall, ?_, hf⟩, ?_⟩
        · intro hnil
          have := congrArg List.length hnil
          rw [List.length_take] at this
          simp only [List.length_nil] at this
          omega
        · rw [if_neg (by simp)] at hcount
          omega
        · rw [← List.drop_drop k i s]
          exact hhead

theorem extract_number_complete (s : List Char) (i : Nat) (tok rest : List Char)
    (q : ℚ) (hd : s.drop i = tok ++ rest) (ht : NumTok tok q)
    (hrest : HeadNotNum rest) :
    extract_number s i = .ok (q, i + tok.length) := by
  obtain ⟨hne, hall, hcount, hfloat⟩ := ht
  unfold extract_number
  rw [hd, scanNum_append_of tok rest false hall
    (by rw [if_neg (by simp)]; omega) hrest]
  simp only []
  rw [if_neg (fun h0 => hne (List.length_eq_zero.1 h0))]
  rw [List.take_left, hfloat]

theorem extract_number_none (s : List Char) (i : Nat) (h : HeadNotNum (s.drop i)) :
    extract_number s i = .error .indexError := by
  unfold extract_number
  have hscan : scanNum (s.drop i) false = .ok 0 := by
    cases hd : s.drop i with
    | nil => rfl
    | cons c cs =>
      have := h c (by rw [hd]; rfl)
      rw [scanNum_cons, if_pos (by simp [this])]
  rw [hscan]
  rfl

theorem drop_cons_of_getElem {s : List Char} {i : Nat} {c : Char}
    (h : s[i]? = some c) : s.drop i = c :: s.drop (i + 1) := by
  have hi : i < s.length := by
    by_contra hx
    rw [List.getElem?_eq_none (by omega)] at h
    cases h
  rw [List.drop_eq_getElem_cons hi]
  have h2 := List.getElem?_eq_getElem hi
  rw [h2] at h
  injection h with h
  rw [h]

theorem drop_takeWhile_length (l : List Char) (p : Char → Bool) :
    l.drop (l.takeWhile p).length = l.dropWhile p := by
  calc l.drop (l.takeWhile p).length
      = (l.takeWhile p ++ l.dropWhile p).drop (l.takeWhile p).length := by
        rw [List.takeWhile_append_dropWhile]
    _ = l.dropWhile p := List.drop_left _ _

theorem numberOrDefault_ok (res : Except ParseErr (ℚ × Nat)) (idx : Nat)
    (v : ℚ × Nat) (h : numberOrDefault res idx = .ok v) :
    res = .ok v ∨ (res = .error .indexError ∧ v = (1, idx)) := by
  unfold numberOrDefault at h
  cases res with
  | ok w =>
    left
    injection h with h
    rw [h]
  | error e =>
    cases e <;> simp only [] at h
    case indexError =>
      right
      injection h with h
      exact ⟨rfl, h.symm⟩
    all_goals cases h

theorem element_token_assembly (s : List Char) (i j : Nat) (c : Char)
    (hdc : s.drop i = c :: s.drop (i + 1))
    (L : List Char) (hpre : (s.drop (i + 1)).take L.length = L)
    (hij : i + 1 + L.length ≤ j) :
    (s.drop i).take (j - i) =
      c :: (L ++ (s.drop (i + 1 + L.length)).take (j - (i + 1 + L.length))) := by
  have h1 : j - i = (j - (i + 1)) + 1 := by omega
  rw [h1, hdc, List.take_succ_cons,
    drop_take_append s (i + 1) (i + 1 + L.length) j (by omega) hij,
    show i + 1 + L.length - (i + 1) = L.length from by omega, hpre]

theorem extract_component_sound (s : List Char) (i : Nat) (comp : Component)
    (j : Nat) (h : extract_component s i = .ok (comp, j)) :
    i < j ∧ ElementStr NumberPos ((s.drop i).take (j - i)) := by
  unfold extract_component at h
  cases hget : s[i]? with
  | none => rw [hget] at h; cases h
  | some c =>
    rw [hget] at h
    simp only [] at h
    by_cases hup : c.isUpper = true
    · rw [if_neg (fun hn => hn hup)] at h
      set L := (s.drop (i + 1)).takeWhile (fun c => c.isLower) with hL
      set idx := i + 1 + L.length with hidx
      cases hnum : numberOrDefault (extract_number s idx) idx with
      | error e => rw [hnum] at h; cases h
      | ok v =>
        obtain ⟨count, j2⟩ := v
        rw [hnum] at h
        simp only [] at h
        by_cases hc0 : count ≤ 0
        · rw [if_pos hc0] at h; cases h
        · rw [if_neg hc0] at h
          injection h with h
          injection h with h1 h2
          subst h2
          subst h1
          have hdc : s.drop i = c :: s.drop (i + 1) := drop_cons_of_getElem hget
          have hpre : (s.drop (i + 1)).take L.length = L :=
            (List.prefix_iff_eq_take.1 (List.takeWhile_prefix _)).symm
          have hlsall : ∀ x ∈ L, x.isLower = true :=
            fun x hx => List.mem_takeWhile_imp hx
          rcases numberOrDefault_ok _ _ _ hnum with hen | ⟨hen, hv⟩
          · obtain ⟨hlt, hle, hnt, hhead⟩ := extract_number_sound s idx count j2 hen
            have htok := element_token_assembly s i j2 c hdc L hpre (by omega)
            rw [htok]
            refine ⟨by omega, ?_⟩
            exact ElementStr.mk c L ((s.drop idx).take (j2 - idx)) hup hlsall
              (Or.inr ⟨count, hnt, not_le.1 hc0⟩)
          · injection hv with hv1 hv2
            subst hv2
            have htok := element_token_assembly s i idx c hdc L hpre (by omega)
            rw [show idx - idx = 0 from by omega] at htok
            rw [List.take_zero, List.append_nil] at htok
            rw [htok]
            refine ⟨by omega, ?_⟩
            have hmk := @ElementStr.mk NumberPos c L [] hup hlsall (Or.inl rfl)
            rw [List.append_nil] at hmk
            exact hmk
    · rw [if_pos (fun hn => hup hn)] at h
      cases h

theorem extract_component_complete (s : List Char) (i : Nat) (u : Char)
    (ls ns rest : List Char)
    (hd : s.drop i = (u :: (ls ++ ns)) ++ rest)
    (hu : u.isUpper = true) (hls : ∀ c ∈ ls, c.isLower = true)
    (hns : ns = [] ∨ NumberPos ns)
    (hrest : HeadBoundary rest) :
    ∃ q, 0 < q ∧ extract_component s i =
      .ok (.element q (u :: ls), i + 1 + ls.length + ns.length) := by
  have hd1 : s.drop i = u :: ((ls ++ ns) ++ rest) := by
    rw [hd, List.cons_append]
  have hget : s[i]? = some u := getAt_of_drop_eq hd1
  have hdrop1 : s.drop (i + 1) = ls ++ (ns ++ rest) := by
    rw [drop_succ_of_drop_eq hd1, List.append_assoc]
  have hlow : (s.drop (i + 1)).takeWhile (fun c => c.isLower) = ls := by
    rw [hdrop1]
    refine takeWhile_all_append _ _ _ hls ?_
    intro c hc
    rcases hns with rfl | ⟨q, hnt, hq⟩
    · exact (hrest c (by simpa using hc)).1
    · obtain ⟨hne, hall, _, _⟩ := hnt
      cases hx : ns with
      | nil => exact absurd hx hne
      | cons a as =>
        rw [hx] at hc
        simp only [List.cons_append, List.head?_cons] at hc
        injection hc with hc
        rw [← hc]
        exact isLower_false_of_numChar a (hall a (by rw [hx]; exact List.mem_cons_self _ _))
  have hidxd : s.drop (i + 1 + ls.length) = ns ++ rest := by
    rw [← List.drop_drop ls.length (i + 1) s, hdrop1, List.drop_left]
  unfold extract_component
  rw [hget]
  simp only []
  rw [if_neg (fun hn => hn hu), hlow]
  rcases hns with rfl | ⟨q, hnt, hq⟩
  · have hnone := extract_number_none s (i + 1 + ls.length) (by
      rw [hidxd]
      intro c hc
      exact (hrest c (by simpa using hc)).2)
    rw [hnone]
    refine ⟨1, one_pos, ?_⟩
    simp only [List.length_nil, Nat.add_zero]
    rfl
  · have hcomp := extract_number_complete s (i + 1 + ls.length) ns rest q hidxd hnt
      (fun c hc => (hrest c hc).2)
    rw [hcomp]
    refine ⟨q, hq, ?_⟩
    simp only [numberOrDefault]
    rw [if_neg (not_le.2 hq)]

theorem group_token_assembly (s : List Char) (i idx j : Nat)
    (hdc : s.drop i = '(' :: s.drop (i + 1))
    (hdr : s.drop idx = ')' :: s.drop (idx + 1))
    (h1 : i + 1 ≤ idx) (h2 : idx + 1 ≤ j) :
    (s.drop i).take (j - i) =
      '(' :: ((s.drop (i + 1)).take (idx - (i + 1)) ++
        ')' :: (s.drop (idx + 1)).take (j - (idx + 1))) := by
  have hji : j - i = (j - (i + 1)) + 1 := by omega
  rw [hji, hdc, List.take_succ_cons,
    drop_take_append s (i + 1) idx j h1 (by omega)]
  congr 1
  have hj2 : j - idx = (j - (idx + 1)) + 1 := by omega
  rw [hj2, hdr, List.take_succ_cons]

theorem parse_sound : ∀ fuel : Nat,
    (∀ (s : List Char) (i : Nat) (comps : List Component) (j : Nat),
      parse_section s i fuel = .ok (comps, j) →
      i ≤ j ∧ SectionStr NumberPos ((s.drop i).take (j - i))) ∧
    (∀ (s : List Char) (i : Nat) (comp : Component) (j : Nat),
      extract_group s i fuel = .ok (comp, j) →
      i < j ∧ GroupStr NumberPos ((s.drop i).take (j - i))) := by
  intro fuel
  induction fuel with
  | zero =>
    constructor
    · intro s i comps j h
      cases h
    · intro s i comp j h
      cases h
  | succ fuel ih =>
    obtain ⟨ihs, ihg⟩ := ih
    constructor
    · intro s i comps j h
      unfold parse_section at h
      cases hget : s[i]? with
      | none =>
        rw [hget] at h
        simp only [] at h
        injection h with h
        injection h with h1 h2
        subst h2
        refine ⟨Nat.le_refl i, ?_⟩
        rw [show i - i = 0 from by omega, List.take_zero]
        exact SectionStr.nil
      | some c =>
        rw [hget] at h
        simp only [] at h
        by_cases hpar : c = ')'
        · rw [if_pos hpar] at h
          injection h with h
          injection h with h1 h2
          subst h2
          refine ⟨Nat.le_refl i, ?_⟩
          rw [show i - i = 0 from by omega, List.take_zero]
          exact SectionStr.nil
        · rw [if_neg hpar] at h
          by_cases halpha : c.isAlpha = true
          · rw [if_pos halpha] at h
            cases hec : extract_component s i with
            | error e => rw [hec] at h; cases h
            | ok v =>
              obtain ⟨comp, next⟩ := v
              rw [hec] at h
              simp only [] at h
              by_cases hni : next = i
              · rw [if_pos hni] at h; cases h
              · rw [if_neg hni] at h
                cases hps : parse_section s next fuel with
                | error e => rw [hps] at h; cases h
                | ok w =>
                  obtain ⟨comps2, stop⟩ := w
                  rw [hps] at h
                  simp only [] at h
                  injection h with h
                  injection h with h1 h2
                  subst h2
                  obtain ⟨hlt, helem⟩ := extract_component_sound s i comp next hec
                  obtain ⟨hle2, hsec⟩ := ihs s next comps2 stop hps
                  refine ⟨by omega, ?_⟩
                  rw [drop_take_append s i next stop (by omega) hle2]
                  exact SectionStr.elem _ _ helem hsec
          · rw [if_neg halpha] at h
            by_cases hopen : c = '('
            · rw [if_pos hopen] at h
              cases heg : extract_group s i fuel with
              | error e => rw [heg] at h; cases h
              | ok v =>
                obtain ⟨comp, next⟩ := v
                rw [heg] at h
                simp only [] at h
                by_cases hni : next = i
                · rw [if_pos hni] at h; cases h
                · rw [if_neg hni] at h
                  cases hps : parse_section s next fuel with
                  | error e => rw [hps] at h; cases h
                  | ok w =>
                    obtain ⟨comps2, stop⟩ := w
                    rw [hps] at h
                    simp only [] at h
                    injection h with h
                    injection h with h1 h2
                    subst h2
                    obtain ⟨hlt, hgrp⟩ := ihg s i comp next heg
                    obtain ⟨hle2, hsec⟩ := ihs s next comps2 stop hps
                    refine ⟨by omega, ?_⟩
                    rw [drop_take_append s i next stop (by omega) hle2]
                    exact SectionStr.grp _ _ hgrp hsec
            · rw [if_neg hopen] at h
              cases h
    · intro s i comp j h
      unfold extract_group at h
      cases hget : s[i]? with
      | none => rw [hget] at h; cases h
      | some c =>
        rw [hget] at h
        simp only [] at h
        by_cases hop : c = '('
        · rw [if_neg (fun hne => hne hop)] at h
          cases hps : parse_section s (i + 1) fuel with
          | error e => rw [hps] at h; cases h
          | ok w =>
            obtain ⟨inner, idx⟩ := w
            rw [hps] at h
            simp only [] at h
            cases hget2 : s[idx]? with
            | none => rw [hget2] at h; cases h
            | some c2 =>
              rw [hget2] at h
              simp only [] at h
              by_cases hc2 : c2 = ')'
              · rw [if_neg (fun hne => hne hc2)] at h
                cases hnum : numberOrDefault (extract_number s (idx + 1)) (idx + 1) with
                | error e => rw [hnum] at h; cases h
                | ok v =>
                  obtain ⟨count, j2⟩ := v
                  rw [hnum] at h
                  simp only [] at h
                  by_cases hc0 : count ≤ 0
                  · rw [if_pos hc0] at h; cases h
                  · rw [if_neg hc0] at h
                    injection h with h
                    injection h with h1 h2
                    subst h2
                    subst h1
                    obtain ⟨hle1, hsec⟩ := ihs s (i + 1) inner idx hps
                    have hdc : s.drop i = '(' :: s.drop (i + 1) := by
                      rw [← hop]
                      exact drop_cons_of_getElem hget
                    have hdr : s.drop idx = ')' :: s.drop (idx + 1) := by
                      rw [← hc2]
                      exact drop_cons_of_getElem hget2
                    rcases numberOrDefault_ok _ _ _ hnum with hen | ⟨hen, hv⟩
                    · obtain ⟨hlt2, hle3, hnt, hhead⟩ :=
                        extract_number_sound s (idx + 1) count j2 hen
                      have htok := group_token_assembly s i idx j2 hdc hdr hle1 (by omega)
                      rw [htok]
                      refine ⟨by omega, ?_⟩
                      exact GroupStr.mk _ _ hsec (Or.inr ⟨count, hnt, not_le.1 hc0⟩)
                    · injection hv with hv1 hv2
                      subst hv2
                      have htok := group_token_assembly s i idx (idx + 1) hdc hdr hle1
                        (Nat.le_refl _)
                      rw [show idx + 1 - (idx + 1) = 0 from by omega, List.take_zero] at htok
                      rw [htok]
                      refine ⟨by omega, ?_⟩
                      exact GroupStr.mk _ _ hsec (Or.inl rfl)
              · rw [if_pos (fun hne => hc2 hne)] at h
                cases h
        · rw [if_pos (fun hne => hop hne)] at h
          cases h

theorem isAlpha_of_isUpper (c : Char) (h : c.isUpper = true) : c.isAlpha = true := by
  simp [Char.isAlpha, h]

theorem sectionStr_head {P : List Char → Prop} {r : List Char}
    (h : SectionStr P r) :
    r = [] ∨ ∃ c cs, r = c :: cs ∧ (c.isUpper = true ∨ c = '(') := by
  cases h with
  | nil => exact Or.inl rfl
  | elem t1 r2 he hr =>
    cases he with
    | mk u ls ns hu hls hns =>
      exact Or.inr ⟨u, (ls ++ ns) ++ r2, by rw [List.cons_append], Or.inl hu⟩
  | grp t1 r2 hg hr =>
    cases hg with
    | mk inner ns hsec hns =>
      exact Or.inr ⟨'(', (inner ++ ')' :: ns) ++ r2, by rw [List.cons_append],
        Or.inr rfl⟩

theorem headBoundary_of {r rest : List Char} (hr : SectionStr NumberPos r)
    (hrest : HeadClose rest) : HeadBoundary (r ++ rest) := by
  intro c hc
  rcases sectionStr_head hr with rfl | ⟨c2, cs, rfl, hc2⟩
  · rw [List.nil_append] at hc
    rcases hrest with hn | hs
    · rw [hn] at hc; cases hc
    · rw [hs] at hc
      injection hc with hc
      subst hc
      exact ⟨by decide, by decide⟩
  · rw [List.cons_append, List.head?_cons] at hc
    injection hc with hc
    subst hc
    rcases hc2 with hup | rfl
    · exact ⟨isLower_false_of_isUpper c2 hup, numChar_false_of_isUpper c2 hup⟩
    · exact ⟨by decide, by decide⟩

theorem headNotNum_of {r rest : List Char} (hr : SectionStr NumberPos r)
    (hrest : HeadClose rest) : HeadNotNum (r ++ rest) :=
  fun c hc => (headBoundary_of hr hrest c hc).2

theorem groupStr_shape {P : List Char → Prop} {t : List Char} (h : GroupStr P t) :
    ∃ inner ns, t = '(' :: (inner ++ ')' :: ns) ∧ SectionStr P inner ∧
      (ns = [] ∨ P ns) := by
  cases h with
  | mk inner ns hsec hns => exact ⟨inner, ns, rfl, hsec, hns⟩

theorem elementStr_shape {P : List Char → Prop} {t : List Char} (h : ElementStr P t) :
    ∃ u ls ns, t = u :: (ls ++ ns) ∧ u.isUpper = true ∧
      (∀ c ∈ ls, c.isLower = true) ∧ (ns = [] ∨ P ns) := by
  cases h with
  | mk u ls ns hu hls hns => exact ⟨u, ls, ns, rfl, hu, hls, hns⟩

theorem head?_drop_eq (s : List Char) (i : Nat) : s[i]? = (s.drop i).head? := by
  rw [List.head?_eq_getElem?]
  have := List.getElem?_drop s i 0
  rw [Nat.add_zero] at this
  exact this.symm

theorem parse_complete : ∀ n : Nat,
    (∀ t : List Char, t.length ≤ n → GroupStr NumberPos t →
      ∀ (s : List Char) (i : Nat) (rest : List Char) (fuel : Nat),
        s.drop i = t ++ rest → HeadNotNum rest → t.length ≤ fuel →
        ∃ comp, extract_group s i fuel = .ok (comp, i + t.length)) ∧
    (∀ t : List Char, t.length ≤ n → SectionStr NumberPos t →
      ∀ (s : List Char) (i : Nat) (rest : List Char) (fuel : Nat),
        s.drop i = t ++ rest → HeadClose rest → t.length + 1 ≤ fuel →
        ∃ comps, parse_section s i fuel = .ok (comps, i + t.length)) := by
  intro n
  induction n using Nat.strong_induction_on with
  | _ n ih =>
    have hgroup : ∀ t : List Char, t.length ≤ n → GroupStr NumberPos t →
        ∀ (s : List Char) (i : Nat) (rest : List Char) (fuel : Nat),
          s.drop i = t ++ rest → HeadNotNum rest → t.length ≤ fuel →
          ∃ comp, extract_group s i fuel = .ok (comp, i + t.length) := by
      intro t hlen hg s i rest fuel hd hb hf
      obtain ⟨inner, ns, rfl, hsec, hns⟩ := groupStr_shape hg
      have hlen_t : ('(' :: (inner ++ ')' :: ns)).length =
          inner.length + ns.length + 2 := by
        simp [List.length_cons, List.length_append]
        omega
      rw [hlen_t] at hf hlen
      have hidx_eq : i + ('(' :: (inner ++ ')' :: ns)).length =
          i + 1 + inner.length + 1 + ns.length := by
        rw [hlen_t]
        omega
      rw [hidx_eq]
      cases fuel with
      | zero => omega
      | succ f =>
        have hd1 : s.drop i = '(' :: ((inner ++ ')' :: ns) ++ rest) := by
          rw [hd, List.cons_append]
        have hget : s[i]? = some '(' := getAt_of_drop_eq hd1
        have hdrop1 : s.drop (i + 1) = inner ++ (')' :: (ns ++ rest)) := by
          rw [drop_succ_of_drop_eq hd1, List.append_assoc, List.cons_append]
        have hinner_lt : inner.length < n := by omega
        obtain ⟨inner_comps, hps⟩ := (ih inner.length hinner_lt).2 inner
          (Nat.le_refl _) hsec s (i + 1) (')' :: (ns ++ rest)) f hdrop1
          (Or.inr rfl) (by omega)
        have hdropIdx : s.drop (i + 1 + inner.length) = ')' :: (ns ++ rest) := by
          rw [← List.drop_drop inner.length (i + 1) s, hdrop1, List.drop_left]
        have hget2 : s[i + 1 + inner.length]? = some ')' := getAt_of_drop_eq hdropIdx
        have hdropNs : s.drop (i + 1 + inner.length + 1) = ns ++ rest :=
          drop_succ_of_drop_eq hdropIdx
        unfold extract_group
        rw [hget]
        simp only []
        rw [if_neg (fun hne => hne rfl), hps]
        simp only []
        rw [hget2]
        simp only []
        rw [if_neg (fun hne => hne rfl)]
        rcases hns with rfl | ⟨q, hnt, hq⟩
        · rw [extract_number_none s (i + 1 + inner.length + 1) (by
            rw [hdropNs, List.nil_append]
            exact hb)]
          refine ⟨.group 1 inner_comps, ?_⟩
          simp only [numberOrDefault, List.length_nil, Nat.add_zero]
          rw [if_neg (by norm_num : ¬ (1 : ℚ) ≤ 0)]
        · rw [extract_number_complete s (i + 1 + inner.length + 1) ns rest q
            hdropNs hnt hb]
          refine ⟨.group q inner_comps, ?_⟩
          simp only [numberOrDefault]
          rw [if_neg (not_le.2 hq)]
    refine ⟨hgroup, ?_⟩
    intro t hlen hs s i rest fuel hd hb hf
    cases hs with
    | nil =>
      cases fuel with
      | zero => omega
      | succ f =>
        refine ⟨[], ?_⟩
        have hgi : s[i]? = rest.head? := by
          rw [head?_drop_eq, hd, List.nil_append]
        unfold parse_section
        simp only [List.length_nil, Nat.add_zero]
        rcases hb with hn | hsome
        · rw [hgi, hn]
        · rw [hgi, hsome]
          simp only []
          rw [if_pos trivial]
    | elem t1 r he hr =>
      obtain ⟨u, ls, ns, rfl, hu, hls, hns⟩ := elementStr_shape he
      cases fuel with
      | zero => omega
      | succ f =>
        have hd1 : s.drop i = (u :: (ls ++ ns)) ++ (r ++ rest) := by
          rw [hd, List.append_assoc]
        have hbd : HeadBoundary (r ++ rest) := headBoundary_of hr hb
        obtain ⟨q, hq, hec⟩ := extract_component_complete s i u ls ns (r ++ rest)
          hd1 hu hls hns hbd
        have ht1len : (u :: (ls ++ ns)).length = 1 + ls.length + ns.length := by
          simp [List.length_cons, List.length_append]
          omega
        have hnext : s.drop (i + 1 + ls.length + ns.length) = r ++ rest := by
          rw [show i + 1 + ls.length + ns.length = i + (u :: (ls ++ ns)).length from by
            rw [ht1len]; omega]
          rw [← List.drop_drop (u :: (ls ++ ns)).length i s, hd1, List.drop_left]
        have hrlen : r.length < n := by
          have hlen2 : (u :: (ls ++ ns)).length + r.length ≤ n := by
            rw [← List.length_append]
            exact hlen
          have h1 : 1 ≤ (u :: (ls ++ ns)).length := by simp
          omega
        obtain ⟨comps2, hps⟩ := (ih r.length hrlen).2 r (Nat.le_refl _) hr s
          (i + 1 + ls.length + ns.length) rest f hnext hb (by
            have hlen2 : ((u :: (ls ++ ns)) ++ r).length =
                (u :: (ls ++ ns)).length + r.length := by
              rw [List.length_append]
            rw [hlen2, ht1len] at hf
            omega)
        refine ⟨.element q (u :: ls) :: comps2, ?_⟩
        have hget : s[i]? = some u := getAt_of_drop_eq (by
          rw [hd1, List.cons_append])
        unfold parse_section
        rw [hget]
        simp only []
        rw [if_neg (fun heq => by rw [heq] at hu; exact absurd hu (by decide)),
          if_pos (isAlpha_of_isUpper u hu), hec]
        simp only []
        rw [if_neg (by omega : ¬ i + 1 + ls.length + ns.length = i), hps]
        simp only []
        have hfinal : i + 1 + ls.length + ns.length + r.length =
            i + ((u :: (ls ++ ns)) ++ r).length := by
          rw [List.length_append, ht1len]
          omega
        rw [hfinal]
    | grp t1 r hg1 hr =>
      have ht1shape := groupStr_shape hg1
      obtain ⟨inner, ns, ht1, hsec1, hns1⟩ := ht1shape
      cases fuel with
      | zero => omega
      | succ f =>
        have hd1 : s.drop i = t1 ++ (r ++ rest) := by
          rw [hd, List.append_assoc]
        have hbn : HeadNotNum (r ++ rest) := headNotNum_of hr hb
        have ht1pos : 1 ≤ t1.length := by
          rw [ht1]
          simp
        have hrlen : r.length < n := by
          have hlen2 : t1.length + r.length ≤ n := by
            rw [← List.length_append]
            exact hlen
          omega
        obtain ⟨comp, heg⟩ := hgroup t1 (by
            have : t1.length + r.length ≤ n := by
              rw [← List.length_append]
              exact hlen
            omega) hg1 s i (r ++ rest) f hd1 hbn (by
            have hlen2 : (t1 ++ r).length = t1.length + r.length := by
              rw [List.length_append]
            rw [hlen2] at hf
            omega)
        have hnext : s.drop (i + t1.length) = r ++ rest := by
          rw [← List.drop_drop t1.length i s, hd1, List.drop_left]
        obtain ⟨comps2, hps⟩ := (ih r.length hrlen).2 r (Nat.le_refl _) hr s
          (i + t1.length) rest f hnext hb (by
            have hlen2 : (t1 ++ r).length = t1.length + r.length := by
              rw [List.length_append]
            rw [hlen2] at hf
            omega)
        refine ⟨comp :: comps2, ?_⟩
        have hget : s[i]? = some '(' := getAt_of_drop_eq (by
          rw [hd1, ht1, List.cons_append])
        unfold parse_section
        rw [hget]
        simp only []
        rw [if_neg (by decide : ¬ ('(' : Char) = ')'),
          if_neg (by decide : ¬ Char.isAlpha '(' = true), if_pos trivial, heg]
        simp only []
        rw [if_neg (by omega : ¬ i + t1.length = i), hps]
        simp only []
        have hfinal : i + t1.length + r.length = i + (t1 ++ r).length := by
          rw [List.length_append]
          omega
        rw [hfinal]

theorem parse_formula_iff (s : List Char) :
    (parse_formula s).isOk = true ↔ ParserLang s := by
  constructor
  · intro h
    unfold parse_formula at h
    cases hps : parse_section s 0 (2 * s.length + 1) with
    | error e => rw [hps] at h; cases h
    | ok v =>
      obtain ⟨comps, next⟩ := v
      rw [hps] at h
      simp only [] at h
      by_cases hn : next = s.length
      · obtain ⟨_, hsec⟩ := (parse_sound _).1 s 0 comps next hps
        rw [hn] at hsec
        rw [List.drop_zero, Nat.sub_zero, List.take_length] at hsec
        exact hsec
      · rw [if_pos hn] at h
        cases h
  · intro h
    obtain ⟨comps, hps⟩ := (parse_complete s.length).2 s (Nat.le_refl _) h s 0 []
      (2 * s.length + 1) (by rw [List.drop_zero, List.append_nil]) (Or.inl rfl)
      (by omega)
    unfold parse_formula
    rw [hps]
    simp only []
    rw [if_neg (by omega : ¬ ¬ 0 + s.length = s.length)]
    rfl

/-- Claim C2, amended. `from_string` succeeds exactly on the strings of the
grammar `Section := (Element | Group)*`, `Element := UpperLetter LowerLetter*
Number?`, `Group := '(' Section ')' Number?`, where a `Number` subscript
token is a nonempty run of digits and at most one decimal point that is not
the bare `"."` (so trailing-dot tokens like `"5."` are allowed) and whose
base-10 value is strictly positive; in particular `"C6H12O6)"`, `"Mg(OH2"`,
`"(AlN7(ScN)3"` and `"C6/H12/O6"` all fail. -/
theorem claim_C2_parser_language :
    (∀ s : List Char, (parse_formula s).isOk = true ↔ ParserLang s) ∧
    (parse_formula "C6H12O6)".toList).isOk = false ∧
    (parse_formula "Mg(OH2".toList).isOk = false ∧
    (parse_formula "(AlN7(ScN)3".toList).isOk = false ∧
    (parse_formula "C6/H12/O6".toList).isOk = false := by
  exact ⟨parse_formula_iff, by rfl, by rfl, by rfl, by rfl⟩

theorem not_numberSpec_five_dot : ¬ NumberSpec ['5', '.'] := by
  have key : ∀ l, NumberSpec l → l = ['5', '.'] → False := by
    intro l hn
    cases hn with
    | noDot ds hne hdig =>
      intro heq
      subst heq
      exact absurd (hdig '.' (by simp)) (by decide)
    | withDot as bs has hbne hbs =>
      intro heq
      have hl := congrArg List.length heq
      simp only [List.length_append, List.length_cons, List.length_nil] at hl
      have hbs1 : 1 ≤ bs.length := by
        cases bs with
        | nil => exact absurd rfl hbne
        | cons b bs2 => simp
      have has0 : as = [] := List.length_eq_zero.1 (by omega)
      subst has0
      rw [List.nil_append] at heq
      injection heq with h1 h2
      exact absurd h1 (by decide)
  exact fun hn => key _ hn rfl

theorem not_specLang_H5dot : ¬ SpecLang ['H', '5', '.'] := by
  have key : ∀ l, SectionStr NumberSpec l → l = ['H', '5', '.'] → False := by
    intro l hs
    cases hs with
    | nil =>
      intro heq
      cases heq
    | elem t1 r he hr =>
      intro heq
      obtain ⟨u, ls, ns, rfl, hu, hls, hns⟩ := elementStr_shape he
      rw [List.cons_append] at heq
      injection heq with h1 h2
      subst h1
      cases ls with
      | cons a ls2 =>
        rw [List.cons_append, List.cons_append] at h2
        injection h2 with h3 h4
        subst h3
        exact absurd (hls '5' (List.mem_cons_self _ _)) (by decide)
      | nil =>
        rw [List.nil_append] at h2
        rcases sectionStr_head hr with rfl | ⟨c, cs, rfl, hc⟩
        · rw [List.append_nil] at h2
          subst h2
          rcases hns with hcon | hnum
          · cases hcon
          · exact not_numberSpec_five_dot hnum
        · cases ns with
          | nil =>
            rw [List.nil_append] at h2
            injection h2 with h3 h4
            subst h3
            rcases hc with hup | hop
            · exact absurd hup (by decide)
            · cases hop
          | cons b ns2 =>
            rw [List.cons_append] at h2
            injection h2 with h3 h4
            subst h3
            cases ns2 with
            | nil =>
              rw [List.nil_append] at h4
              injection h4 with h5 h6
              subst h5
              rcases hc with hup | hop
              · exact absurd hup (by decide)
              · cases hop
            | cons d ns3 =>
              rw [List.cons_append] at h4
              injection h4 with h5 h6
              subst h5
              have hl := congrArg List.length h6
              simp only [List.length_append, List.length_cons, List.length_nil] at hl
              omega
    | grp t1 r hg hr =>
      intro heq
      obtain ⟨inner, ns, rfl, _, _⟩ := groupStr_shape hg
      rw [List.cons_append] at heq
      injection heq with h1 h2
      cases h1
  exact fun hn => key _ hn rfl

/-- Counterexample for C2 as stated: the spec grammar and the parser's
accepted language differ in both directions — `"C0"` is generated by the
spec grammar (`Number := Digit+ ...` includes `"0"`) yet `from_string`
rejects it (subscripts must be positive), while `"C6H12O6"`-style strings
with a trailing-dot subscript such as `"H5."` are accepted by the parser
(Python `float("5.")` is `5.0`) yet not generated by the spec grammar. -/
theorem claim_C2_counterexample :
    (SpecLang "C0".toList ∧ (parse_formula "C0".toList).isOk = false) ∧
    ((parse_formula "H5.".toList).isOk = true ∧ ¬ SpecLang "H5.".toList) := by
  refine ⟨⟨?_, by rfl⟩, by rfl, ?_⟩
  · have helem : ElementStr NumberSpec ['C', '0'] := by
      have := @ElementStr.mk NumberSpec 'C' [] ['0'] (by decide)
        (by intro c hc; cases hc) (Or.inr (NumberSpec.noDot ['0'] (by simp)
          (by intro c hc; rcases List.mem_singleton.1 hc with rfl; decide)))
      simpa using this
    have := @SectionStr.elem NumberSpec ['C', '0'] [] helem SectionStr.nil
    simpa using this
  · show ¬ SpecLang ['H', '5', '.']
    exact not_specLang_H5dot
